import Mathlib

/-!
# Verification of `str/convert.go` (duysmile/kitchen)

A shallow embedding of the identifier-casing helpers of package `str`.

Data model.  A Go `string` is an immutable sequence of bytes, so it is embedded as
`List (Fin 256)`.  `len(s)` is the length of that list and `s[i]` is its `i`-th byte.
A `for i, c := range s` loop walks the string rune by rune: at byte offset `i` it decodes
one UTF-8 sequence, yields the offset and the rune, and advances by the width of the
sequence (an invalid sequence yields `U+FFFD` and advances by one byte).  Runes are
embedded as natural numbers.  A `strings.Builder` is the list of bytes written so far.
A `panic` is embedded as an `Except` error carrying the kind of the panic.
The counter `upperCount` is a Go `int` that is incremented at most once per byte of the
input and only ever compared with zero; it cannot wrap around on a string that fits in
memory, so it is a natural number here.
-/

set_option maxRecDepth 8000

namespace Str

/-! ## Bytes, runes and strings -/

/-- A Go `byte`. -/
abbrev Byte := Fin 256

/-- A Go `string`: a sequence of bytes. -/
abbrev GoString := List Byte

/-- The conversion `byte(r)` of an integer to a byte: truncation to eight bits. -/
def toByte (r : Nat) : Byte := ⟨r % 256, Nat.mod_lt r (by decide)⟩

/-- The constant `utf8.RuneError`, `U+FFFD`. -/
def RuneError : Nat := 0xFFFD

/-- The constant `utf8.MaxRune`, `U+10FFFF`. -/
def MaxRune : Nat := 0x10FFFF

/-! ## UTF-8 decoding and encoding (package `unicode/utf8`) -/

/-- Table `first` of `unicode/utf8`: information about the first byte of a UTF-8 sequence.
`0xF0` marks an ASCII byte, `0xF1` an invalid first byte; otherwise the low three bits
are the size of the sequence and the high four bits index `acceptRanges`. -/
def first (b : Nat) : Nat :=
  if b < 0x80 then 0xF0
  else if b < 0xC2 then 0xF1
  else if b < 0xE0 then 0x02
  else if b = 0xE0 then 0x13
  else if b < 0xED then 0x03
  else if b = 0xED then 0x23
  else if b < 0xF0 then 0x03
  else if b = 0xF0 then 0x34
  else if b < 0xF4 then 0x04
  else if b = 0xF4 then 0x44
  else 0xF1

/-- Table `acceptRanges` of `unicode/utf8`: the accepted range `(lo, hi)` of the second
byte of a sequence. -/
def acceptRanges (k : Nat) : Nat × Nat :=
  match k with
  | 0 => (0x80, 0xBF)
  | 1 => (0xA0, 0xBF)
  | 2 => (0x80, 0x9F)
  | 3 => (0x90, 0xBF)
  | 4 => (0x80, 0x8F)
  | _ => (0, 0)

/-- The function `utf8.DecodeRuneInString`: the first rune of `s` and its width in bytes.
The masks `s0 & 0x1F`, `s & 0x3F`, ... are written `% 32`, `% 64`, ..., the shifts as
multiplications and the bitwise or of disjoint bit fields as a sum. -/
def decodeRune (s : GoString) : Nat × Nat :=
  match s with
  | [] => (RuneError, 0)
  | s0 :: t =>
    let x := first s0.val
    if x ≥ 0xF0 then
      (if x = 0xF0 then s0.val else RuneError, 1)
    else
      let sz := x % 8
      let accept := acceptRanges (x / 16)
      if s.length < sz then (RuneError, 1)
      else
        match t with
        | [] => (RuneError, 1)
        | s1 :: t1 =>
          if s1.val < accept.1 ∨ accept.2 < s1.val then (RuneError, 1)
          else if sz ≤ 2 then ((s0.val % 32) * 64 + s1.val % 64, 2)
          else
            match t1 with
            | [] => (RuneError, 1)
            | s2 :: t2 =>
              if s2.val < 0x80 ∨ 0xBF < s2.val then (RuneError, 1)
              else if sz ≤ 3 then
                ((s0.val % 16) * 4096 + (s1.val % 64) * 64 + s2.val % 64, 3)
              else
                match t2 with
                | [] => (RuneError, 1)
                | s3 :: _ =>
                  if s3.val < 0x80 ∨ 0xBF < s3.val then (RuneError, 1)
                  else
                    ((s0.val % 8) * 262144 + (s1.val % 64) * 4096 + (s2.val % 64) * 64
                      + s3.val % 64, 4)

/-- The function `utf8.AppendRune`: the UTF-8 encoding of rune `r`; a surrogate or a value
above `MaxRune` is encoded as `RuneError`. -/
def encodeRune (r : Nat) : GoString :=
  if r ≤ 0x7F then [toByte r]
  else if r ≤ 0x7FF then [toByte (0xC0 + r / 64), toByte (0x80 + r % 64)]
  else if r > MaxRune ∨ (0xD800 ≤ r ∧ r ≤ 0xDFFF) then [toByte 0xEF, toByte 0xBF, toByte 0xBD]
  else if r ≤ 0xFFFF then
    [toByte (0xE0 + r / 4096), toByte (0x80 + r / 64 % 64), toByte (0x80 + r % 64)]
  else
    [toByte (0xF0 + r / 262144), toByte (0x80 + r / 4096 % 64), toByte (0x80 + r / 64 % 64),
      toByte (0x80 + r % 64)]

/-- The conversion `string(a)` of a rune slice `a`: the concatenated encodings. -/
def encodeRunes : List Nat → GoString
  | [] => []
  | r :: rs => encodeRune r ++ encodeRunes rs

/-- The Go string denoted by a string literal: the UTF-8 encoding of its code points. -/
def goStr (s : String) : GoString := encodeRunes (s.toList.map Char.toNat)

/-- The iteration of `for i, c := range s`, started at byte offset `i` with `skip` bytes
of the current sequence still to be passed over: the list of the pairs `(i, c)` the loop
body is run with. -/
def rangeFrom : GoString → Nat → Nat → List (Nat × Nat)
  | [], _, _ => []
  | _ :: bs, skip + 1, i => rangeFrom bs skip (i + 1)
  | b :: bs, 0, i =>
    (i, (decodeRune (b :: bs)).1) :: rangeFrom bs ((decodeRune (b :: bs)).2 - 1) (i + 1)

/-- The pairs `(i, c)` of `for i, c := range s`. -/
def rangeString (s : GoString) : List (Nat × Nat) := rangeFrom s 0 0

/-- The conversion `[]rune(s)`. -/
def toRunes (s : GoString) : List Nat := (rangeString s).map Prod.snd

/-! ## Character classes (`isDigit`, `isLowercase`, `isUppercase`) -/

/-- Is the rune `r >= '0' && r <= '9'`. -/
def isDigit (r : Nat) : Bool := decide (r ≥ 48) && decide (r ≤ 57)

/-- Is the rune `r >= 'a' && r <= 'z'`. -/
def isLowercase (r : Nat) : Bool := decide (r ≥ 97) && decide (r ≤ 122)

/-- Is the rune `r >= 'A' && r <= 'Z'`. -/
def isUppercase (r : Nat) : Bool := decide (r ≥ 65) && decide (r ≤ 90)

/-! ## `nextIsLower` -/

/-- The function `nextIsLower(input, i)`: the byte after offset `i` exists, is not an `s`
in the last position, and is a lowercase letter. -/
def nextIsLower (input : GoString) (i : Nat) : Bool :=
  let i := i + 1
  if i ≥ input.length then false
  else
    match input[i]? with
    | none => false
    | some c =>
      if c.val = 115 ∧ i = input.length - 1 then false
      else isLowercase c.val

/-! ## `NormTitleCase` and `ToSnakeCase` -/

/-- The two ways the scanners panic. -/
inductive PanicKind where
  /-- `Identifier must start with a character`: the rune at offset 0 is a digit. -/
  | InvalidLeadingCharacter
  /-- `Invalid identifier`: a rune that is neither a letter nor a digit. -/
  | InvalidIdentifierCharacter
  deriving DecidableEq, Repr

deriving instance DecidableEq for Except

/-- The loop of `NormTitleCase` over the remaining `(i, c)` pairs, with the builder `sb`
and the counter `upperCount`. -/
def normLoop (input : GoString) : List (Nat × Nat) → GoString → Nat → Except PanicKind GoString
  | [], sb, _ => .ok sb
  | (i, c) :: rest, sb, upperCount =>
    if isUppercase c then
      if upperCount = 0 ∨ nextIsLower input i = true then
        normLoop input rest (sb ++ [toByte c]) (upperCount + 1)
      else
        normLoop input rest (sb ++ [toByte (c - 65 + 97)]) (upperCount + 1)
    else if isLowercase c then
      normLoop input rest (sb ++ [toByte c]) 0
    else if isDigit c then
      if i = 0 then .error .InvalidLeadingCharacter
      else normLoop input rest (sb ++ [toByte c]) 0
    else
      normLoop input rest sb upperCount

/-- The function `NormTitleCase`. -/
def NormTitleCase (input : GoString) : Except PanicKind GoString :=
  normLoop input (rangeString input) [] 0

/-- The loop of `ToSnakeCase` over the remaining `(i, c)` pairs, with the builder `sb`
and the counter `upperCount`. -/
def snakeLoop (input : GoString) : List (Nat × Nat) → GoString → Nat → Except PanicKind GoString
  | [], sb, _ => .ok sb
  | (i, c) :: rest, sb, upperCount =>
    if isUppercase c then
      if i > 0 ∧ (upperCount = 0 ∨ nextIsLower input i = true) then
        snakeLoop input rest (sb ++ [toByte 95] ++ [toByte (c - 65 + 97)]) (upperCount + 1)
      else
        snakeLoop input rest (sb ++ [toByte (c - 65 + 97)]) (upperCount + 1)
    else if isLowercase c then
      snakeLoop input rest (sb ++ [toByte c]) 0
    else if isDigit c then
      if i = 0 then .error .InvalidLeadingCharacter
      else snakeLoop input rest (sb ++ [toByte c]) upperCount
    else
      .error .InvalidIdentifierCharacter

/-- The function `ToSnakeCase`. -/
def ToSnakeCase (input : GoString) : Except PanicKind GoString :=
  snakeLoop input (rangeString input) [] 0

/-! ## `ToTitleCase` -/

/-- The loop of `strings.Split(s, sep)` for a one-byte separator: `cur` is the segment
being read.  Every occurrence of the separator ends a segment; the rest of the string is
the last segment. -/
def splitFrom (sep : Byte) : GoString → GoString → List GoString
  | [], cur => [cur]
  | b :: bs, cur =>
    if b = sep then cur :: splitFrom sep bs [] else splitFrom sep bs (cur ++ [b])

/-- The call `strings.Split(s, sep)` for a one-byte separator. -/
def Split (s : GoString) (sep : Byte) : List GoString := splitFrom sep s []

/-- The function `unicode.ToUpper` on the runes below `U+0100`, the only ones the
conversion of a byte produces (case ranges of the Unicode tables for Latin-1: the micro
sign, the accented lowercase letters and y with diaeresis have an uppercase form). -/
def unicodeToUpper (r : Nat) : Nat :=
  if r ≤ 0x7F then
    if 97 ≤ r ∧ r ≤ 122 then r - 32 else r
  else if r = 0xB5 then 0x39C
  else if 0xE0 ≤ r ∧ r ≤ 0xFE ∧ r ≠ 0xF7 then r - 32
  else if r = 0xFF then 0x178
  else r

/-- The expression `strings.ToUpper(string(b))` for a byte `b`: `string(b)` is the UTF-8
encoding of the rune `U+00bb`; `strings.ToUpper` maps the bytes of an ASCII string and the
runes of any other string. -/
def upperOfByte (b : Byte) : GoString :=
  if b.val < 0x80 then
    [if 97 ≤ b.val ∧ b.val ≤ 122 then toByte (b.val - 32) else b]
  else encodeRune (unicodeToUpper b.val)

/-- The loop of `ToTitleCase` over the remaining segments, with the builder `sb`. -/
def titleLoop : List GoString → GoString → GoString
  | [], sb => sb
  | [] :: ss, sb => titleLoop ss sb
  | (s0 :: s1) :: ss, sb => titleLoop ss (sb ++ (upperOfByte s0 ++ s1))

/-- The function `ToTitleCase`. -/
def ToTitleCase (input : GoString) : GoString :=
  titleLoop (Split input (toByte 95)) []

/-! ## `ToCamelCase` -/

/-- The function `unicode.ToLower`: the ASCII branch is the library's own; above ASCII the
library consults the Unicode case tables, here the function `lowerTable`. -/
def unicodeToLower (lowerTable : Nat → Nat) (r : Nat) : Nat :=
  if r ≤ 0x7F then
    if 65 ≤ r ∧ r ≤ 90 then r + 32 else r
  else lowerTable r

/-- The function `ToCamelCase`.  The slice `a` of a non-empty string is not empty, so the
assignment to `a[0]` is always in bounds. -/
def ToCamelCase (lowerTable : Nat → Nat) (input : GoString) : GoString :=
  if input = [] then []
  else
    match toRunes input with
    | [] => []
    | a0 :: a => encodeRunes (unicodeToLower lowerTable a0 :: a)

/-! ## `Normalize` -/

/-- The loop of `sort.Search`: binary search on `[i, j)` for the least index at which `f`
holds; each round halves the interval, so `fuel` rounds are enough when `j - i ≤ fuel`. -/
def sortSearchLoop (f : Nat → Bool) : Nat → Nat → Nat → Nat
  | 0, i, _ => i
  | fuel + 1, i, j =>
    if i < j then
      let h := (i + j) / 2
      if !f h then sortSearchLoop f fuel (h + 1) j else sortSearchLoop f fuel i h
    else i

/-- The function `sort.Search(n, f)`: the least index in `[0, n)` at which `f` holds, and
`n` when there is none. -/
def sortSearch (n : Nat) (f : Nat → Bool) : Nat := sortSearchLoop f n 0 n

/-- The table `sortedSpecialRunes`: `Đ`, `đ`, `Ł`. -/
def sortedSpecialRunes : List Nat := [0x110, 0x111, 0x141]

/-- The table `replacedByRunes`: `D`, `d`, `L`. -/
def replacedByRunes : List Nat := [68, 100, 76]

/-- The position `pos` computed for rune `r`:
`sort.Search(len(sortedSpecialRunes), func(i) { return sortedSpecialRunes[i] >= r })`. -/
def searchPos (r : Nat) : Nat :=
  sortSearch sortedSpecialRunes.length
    (fun i => match sortedSpecialRunes[i]? with
      | some x => decide (x ≥ r)
      | none => false)

/-- The body of the loop of `Normalize` for rune `r`: the rune to write, or `none` when an
index expression is out of range (a run-time panic). -/
def substituteRune (r : Nat) : Option Nat :=
  let pos := searchPos r
  if (pos : Int) ≠ -1 then
    match sortedSpecialRunes[pos]? with
    | none => none
    | some x => if r = x then replacedByRunes[pos]? else some r
  else some r

/-- The loop of `Normalize` over the remaining runes, with the builder `sb`. -/
def normalizeLoop : List Nat → GoString → Option GoString
  | [], sb => some sb
  | r :: rs, sb =>
    match substituteRune r with
    | none => none
    | some w => normalizeLoop rs (sb ++ encodeRune w)

/-- The function `Normalize`.  `trimSpace` stands for `strings.TrimSpace` and
`transformString` for `transform.String` applied to the chain
`norm.NFD, RemoveFunc(isMn), norm.NFC`, both library code. -/
def Normalize (trimSpace transformString : GoString → GoString) (input : GoString) :
    Option GoString :=
  normalizeLoop (toRunes (transformString (trimSpace input))) []

/-! ## Definitions that follow the specification

The definitions of this section are written from the words of the specification, by
position in the input, and are compared below with the functions embedded from the source. -/

/-- The byte is an ASCII letter or digit, a character of `[A-Za-z0-9]`. -/
def isAlnum (b : Byte) : Bool := isUppercase b.val || isLowercase b.val || isDigit b.val

/-- The byte is an ASCII letter. -/
def isLetter (b : Byte) : Bool := isUppercase b.val || isLowercase b.val

/-- The first character of `x` exists and is an ASCII digit. -/
def startsWithDigit (x : GoString) : Bool :=
  match x with
  | [] => false
  | b :: _ => isDigit b.val

/-- Position `i` of `x` holds an uppercase ASCII letter. -/
def upperAt (x : GoString) (i : Nat) : Bool :=
  match x[i]? with
  | some b => isUppercase b.val
  | none => false

/-- Position `i` of `x` holds a lowercase ASCII letter. -/
def lowerAt (x : GoString) (i : Nat) : Bool :=
  match x[i]? with
  | some b => isLowercase b.val
  | none => false

/-- The character is lowercased: an uppercase ASCII letter becomes the lowercase one, any
other byte is unchanged. -/
def asciiLower (b : Byte) : Byte := if isUppercase b.val then toByte (b.val + 32) else b

/-- The character is uppercased: a lowercase ASCII letter becomes the uppercase one, any
other byte is unchanged. -/
def asciiUpper (b : Byte) : Byte := if isLowercase b.val then toByte (b.val - 32) else b

/-- The lookahead of the boundary rule: `x[i+1]` exists, is a lowercase ASCII letter, and
is not an `s` in the last position of `x`. -/
def followedByLower (x : GoString) (i : Nat) : Bool :=
  match x[i + 1]? with
  | none => false
  | some b => isLowercase b.val && !(decide (b.val = 115) && decide (i + 1 = x.length - 1))

/-- The run counter of `ToSnakeCase` is zero at position `i`: no uppercase letter has been
seen since the last lowercase letter before `i`. -/
def runClear (x : GoString) (i : Nat) : Bool :=
  (List.range i).all fun j =>
    !upperAt x j || (List.range i).any fun k => decide (j < k) && lowerAt x k

/-- The uppercase letter at position `i` is a word-start for `ToSnakeCase`. -/
def snakeWordStart (x : GoString) (i : Nat) : Bool := runClear x i || followedByLower x i

/-- What `ToSnakeCase` emits for position `i`, in the words of the specification. -/
def snakePiece (x : GoString) (i : Nat) : GoString :=
  match x[i]? with
  | none => []
  | some b =>
    if isUppercase b.val then
      if decide (i > 0) && snakeWordStart x i then [toByte 95, asciiLower b] else [asciiLower b]
    else [b]

/-- The in-order concatenation over the positions of `x` of what is emitted there. -/
def snakeSpec (x : GoString) : GoString := (List.range x.length).flatMap (snakePiece x)

/-- The uppercase letter at position `i` is a word-start for `NormTitleCase`: it is the
first uppercase letter of its run, or the lookahead holds. -/
def normWordStart (x : GoString) (i : Nat) : Bool :=
  decide (i = 0) || !upperAt x (i - 1) || followedByLower x i

/-- The character `NormTitleCase` writes for the byte `b` at position `i`, in the words of
the specification. -/
def normChar (x : GoString) (i : Nat) (b : Byte) : Byte :=
  if isUppercase b.val then
    if normWordStart x i then b else asciiLower b
  else b

/-- A segment with its first character uppercased and its remainder unchanged. -/
def capitalize : GoString → GoString
  | [] => []
  | b :: bs => asciiUpper b :: bs

/-- The concatenation, with no separator, of the capitalized non-empty segments of `s`
split on `_`. -/
def titleSpec (s : GoString) : GoString :=
  (((List.splitOn (toByte 95) s).filter (fun seg => decide (seg ≠ []))).map capitalize).flatten

/-! ## `Hash`

The function `sha256.New` is library code; its one-shot digest is the parameter `sum`.
The construction around it is that of `crypto/hmac` and `encoding/hex`. -/

/-- The block size of SHA-256 in bytes, `sha256.BlockSize`. -/
def blockSize : Nat := 64

/-- The key as `hmac.New` uses it: a key longer than the block is replaced by its digest. -/
def hmacKey (sum : GoString → GoString) (key : GoString) : GoString :=
  if key.length > blockSize then sum key else key

/-- The statement `copy(pad, key)` into a zeroed block: the first bytes of the key, at most
a block of them, followed by the zero bytes that are left. -/
def copyKey (key : GoString) : GoString :=
  key.take blockSize ++ List.replicate (blockSize - key.length) (toByte 0)

/-- The loop `for i := range pad { pad[i] ^= v }`. -/
def xorPad (pad : GoString) (v : Nat) : GoString := pad.map fun b => toByte (b.val ^^^ v)

/-- The value of `mac.Sum(nil)` after `mac.Write(msg)` for `mac := hmac.New(h, key)`: the
outer digest of `opad` and the inner digest of `ipad` and the message. -/
def hmacSum (sum : GoString → GoString) (key msg : GoString) : GoString :=
  let block := copyKey (hmacKey sum key)
  sum (xorPad block 0x5c ++ sum (xorPad block 0x36 ++ msg))

/-- What `mac.Sum(nil)` writes to the outer hash before taking its digest: `opad` followed
by the inner digest of `ipad` and the message. -/
def hmacOuterInput (sum : GoString → GoString) (key msg : GoString) : GoString :=
  xorPad (copyKey (hmacKey sum key)) 0x5c ++ sum (xorPad (copyKey (hmacKey sum key)) 0x36 ++ msg)

/-- The character of `"0123456789abcdef"` at index `n`. -/
def hexDigit (n : Nat) : Byte := if n < 10 then toByte (48 + n) else toByte (87 + n)

/-- The function `hex.EncodeToString`: two lowercase hexadecimal digits for each byte. -/
def hexEncode : GoString → GoString
  | [] => []
  | b :: bs => hexDigit (b.val / 16) :: hexDigit (b.val % 16) :: hexEncode bs

/-- The function `Hash(password, salt)`: the key of the MAC is `salt`, the message is
`password`. -/
def Hash (sum : GoString → GoString) (password salt : GoString) : GoString :=
  hexEncode (hmacSum sum salt password)

/-! ## Definitions that follow the specification: `Normalize` -/

/-- The special-letter substitution in the words of the specification: `Đ` becomes `D`,
`đ` becomes `d`, `Ł` becomes `L`, every other code point is unchanged. -/
def substituteSpec (r : Nat) : Nat :=
  if r = 0x110 then 68 else if r = 0x111 then 100 else if r = 0x141 then 76 else r

/-- The code point is an ASCII letter or one of the three special letters `Đ`, `đ`, `Ł`. -/
def isLetterOrSpecial (c : Char) : Bool :=
  isUppercase c.toNat || isLowercase c.toNat
    || decide (c.toNat = 0x110) || decide (c.toNat = 0x111) || decide (c.toNat = 0x141)

/-! ## Lemmas on the decoder and on `range` -/

theorem decodeRune_ascii (b : Byte) (bs : GoString) (h : b.val < 128) :
    decodeRune (b :: bs) = (b.val, 1) := by
  have h1 : first b.val = 0xF0 := by simp [first, h]
  simp [decodeRune, h1]

theorem rangeFrom_ascii (b : Byte) (bs : GoString) (i : Nat) (h : b.val < 128) :
    rangeFrom (b :: bs) 0 i = (i, b.val) :: rangeFrom bs 0 (i + 1) := by
  simp [rangeFrom, decodeRune_ascii b bs h]

theorem isAlnum_lt (b : Byte) (h : isAlnum b = true) : b.val < 128 := by
  simp [isAlnum, isUppercase, isLowercase, isDigit] at h
  omega

theorem nextIsLower_eq (x : GoString) (i : Nat) : nextIsLower x i = followedByLower x i := by
  unfold nextIsLower followedByLower
  by_cases h : i + 1 ≥ x.length
  · have : x[i + 1]? = none := List.getElem?_eq_none (by omega)
    simp [h, this]
  · have hlt : i + 1 < x.length := by omega
    simp only [h, if_false]
    cases hb : x[i + 1]? with
    | none => rfl
    | some b =>
      by_cases hs : b.val = 115 ∧ i + 1 = x.length - 1
      · simp [hs.1, ← hs.2]
      · simp only [hs, if_false]
        by_cases h1 : b.val = 115
        · have h2 : ¬ (i + 1 = x.length - 1) := fun h2 => hs ⟨h1, h2⟩
          simp [h1, h2]
        · simp [h1]

theorem upperAt_lowerAt (x : GoString) (i : Nat) (h : lowerAt x i = true) :
    upperAt x i = false := by
  unfold lowerAt at h
  unfold upperAt
  cases hb : x[i]? with
  | none => rfl
  | some b =>
    rw [hb] at h
    simp [isLowercase, isUppercase] at h ⊢
    omega

theorem runClear_iff (x : GoString) (i : Nat) :
    runClear x i = true ↔
      ∀ j, j < i → upperAt x j = true → ∃ k, j < k ∧ k < i ∧ lowerAt x k = true := by
  unfold runClear
  simp only [List.all_eq_true, List.mem_range, Bool.or_eq_true, Bool.not_eq_true',
    List.any_eq_true, Bool.and_eq_true, decide_eq_true_eq]
  constructor
  · intro h j hj hu
    rcases h j hj with h1 | ⟨k, hk, hjk, hl⟩
    · rw [hu] at h1; cases h1
    · exact ⟨k, hjk, hk, hl⟩
  · intro h j hj
    cases hu : upperAt x j with
    | false => exact Or.inl rfl
    | true =>
      obtain ⟨k, hjk, hk, hl⟩ := h j hj hu
      exact Or.inr ⟨k, hk, hjk, hl⟩

theorem runClear_succ (x : GoString) (i : Nat) :
    runClear x (i + 1) = (lowerAt x i || (!upperAt x i && runClear x i)) := by
  rw [Bool.eq_iff_iff]
  simp only [Bool.or_eq_true, Bool.and_eq_true, Bool.not_eq_true', runClear_iff]
  constructor
  · intro h
    cases hl : lowerAt x i with
    | true => exact Or.inl rfl
    | false =>
      refine Or.inr ⟨?_, ?_⟩
      · cases hu : upperAt x i with
        | false => rfl
        | true =>
          obtain ⟨k, h1, h2, _⟩ := h i (Nat.lt_succ_self i) hu
          omega
      · intro j hj hu
        obtain ⟨k, h1, h2, h3⟩ := h j (by omega) hu
        have hki : k ≠ i := by
          intro hki
          rw [hki, hl] at h3
          cases h3
        exact ⟨k, h1, by omega, h3⟩
  · rintro (hl | ⟨hu, h⟩) j hj hju
    · have hji : j ≠ i := by
        intro hji
        rw [hji, upperAt_lowerAt x i hl] at hju
        cases hju
      exact ⟨i, by omega, Nat.lt_succ_self i, hl⟩
    · have hji : j ≠ i := by
        intro hji
        rw [hji, hu] at hju
        cases hju
      obtain ⟨k, h1, h2, h3⟩ := h j (by omega) hju
      exact ⟨k, h1, by omega, h3⟩

theorem runClear_zero (x : GoString) : runClear x 0 = true := by
  rw [runClear_iff]
  intro j hj
  omega

theorem getElem?_at_length (pre : GoString) (b : Byte) (bs : GoString) :
    (pre ++ b :: bs)[pre.length]? = some b := by
  rw [List.getElem?_append_right (Nat.le_refl _)]
  simp

theorem toByte_val (b : Byte) : toByte b.val = b := by
  apply Fin.ext
  simp [toByte, Nat.mod_eq_of_lt b.isLt]

/-- The loop of `ToSnakeCase`, run on a suffix `suf` of alphanumeric bytes of the input
`pre ++ suf` with the counter in the state the specification describes, appends to the
builder what the specification emits for the positions of `suf`. -/
theorem snakeLoop_spec (x : GoString) :
    ∀ (suf pre sb : GoString) (uc : Nat), x = pre ++ suf →
      (∀ b ∈ suf, isAlnum b = true) →
      (pre = [] → startsWithDigit suf = false) →
      (uc = 0 ↔ runClear x pre.length = true) →
      snakeLoop x (rangeFrom suf 0 pre.length) sb uc
        = .ok (sb ++ (List.range' pre.length suf.length).flatMap (snakePiece x)) := by
  intro suf
  induction suf with
  | nil =>
    intro pre sb uc _ _ _ _
    simp [rangeFrom, snakeLoop]
  | cons b bs ih =>
    intro pre sb uc hx hal hfst huc
    have hb : isAlnum b = true := hal b (List.mem_cons_self _ _)
    have hlt : b.val < 128 := isAlnum_lt b hb
    have hxb : x[pre.length]? = some b := by rw [hx]; exact getElem?_at_length pre b bs
    have hx2 : x = (pre ++ [b]) ++ bs := by rw [hx]; simp
    have hal2 : ∀ c ∈ bs, isAlnum c = true := fun c hc => hal c (List.mem_cons_of_mem _ hc)
    have hne : pre ++ [b] = [] → startsWithDigit bs = false := by
      intro h; simp at h
    have hlen : (pre ++ [b]).length = pre.length + 1 := by simp
    have hup : upperAt x pre.length = isUppercase b.val := by simp [upperAt, hxb]
    have hlo : lowerAt x pre.length = isLowercase b.val := by simp [lowerAt, hxb]
    have hrc := runClear_succ x pre.length
    rw [hup, hlo] at hrc
    rw [rangeFrom_ascii b bs pre.length hlt, List.length_cons, List.range'_succ,
      List.flatMap_cons]
    unfold snakeLoop
    by_cases hU : isUppercase b.val = true
    · have hL : isLowercase b.val = false := by
        simp [isUppercase, isLowercase] at hU ⊢; omega
      have hlow : toByte (b.val - 65 + 97) = asciiLower b := by
        simp only [asciiLower, hU, if_true]
        congr 1
        simp [isUppercase] at hU
        omega
      have hnew : (uc + 1 = 0 ↔ runClear x (pre ++ [b]).length = true) := by
        rw [hlen, hrc, hU, hL]; simp
      have ih2 := fun sb2 => ih (pre ++ [b]) sb2 (uc + 1) hx2 hal2 hne hnew
      rw [hlen] at ih2
      simp only [hU, if_true]
      by_cases hc : pre.length > 0 ∧ (uc = 0 ∨ nextIsLower x pre.length = true)
      · have hws : (decide (pre.length > 0) && snakeWordStart x pre.length) = true := by
          simp only [snakeWordStart, Bool.and_eq_true, decide_eq_true_eq, Bool.or_eq_true]
          refine ⟨hc.1, ?_⟩
          rcases hc.2 with h | h
          · exact Or.inl (huc.mp h)
          · exact Or.inr (by rw [← nextIsLower_eq]; exact h)
        have hp : snakePiece x pre.length = [toByte 95, asciiLower b] := by
          simp only [snakePiece, hxb, hU, hws, if_true]
        rw [hp]
        simp only [hc, and_self, if_true, ih2, hlow]
        simp
      · have hws : (decide (pre.length > 0) && snakeWordStart x pre.length) = false := by
          rw [Bool.eq_false_iff]
          intro h
          simp only [snakeWordStart, Bool.and_eq_true, decide_eq_true_eq, Bool.or_eq_true] at h
          apply hc
          refine ⟨h.1, ?_⟩
          rcases h.2 with h | h
          · exact Or.inl (huc.mpr h)
          · exact Or.inr (by rw [nextIsLower_eq]; exact h)
        have hp : snakePiece x pre.length = [asciiLower b] := by
          simp only [snakePiece, hxb, hU, hws, if_true]
          simp
        rw [hp]
        simp only [hc, if_false, ih2, hlow]
        simp
    · have hU2 : isUppercase b.val = false := by simpa using hU
      by_cases hL : isLowercase b.val = true
      · have hnew : (0 = 0 ↔ runClear x (pre ++ [b]).length = true) := by
          rw [hlen, hrc, hL]; simp
        have ih2 := fun sb2 => ih (pre ++ [b]) sb2 0 hx2 hal2 hne hnew
        rw [hlen] at ih2
        have hp : snakePiece x pre.length = [b] := by
          simp only [snakePiece, hxb, hU2]
          simp
        rw [hp]
        simp only [hU2, hL, if_true, ih2, toByte_val]
        simp
      · have hL2 : isLowercase b.val = false := by simpa using hL
        have hD : isDigit b.val = true := by
          simp only [isAlnum, hU2, hL2, Bool.false_or] at hb
          exact hb
        have hpos : pre.length ≠ 0 := by
          intro h0
          have hpre : pre = [] := List.length_eq_zero.mp h0
          have := hfst hpre
          simp [startsWithDigit, hD] at this
        have hnew : (uc = 0 ↔ runClear x (pre ++ [b]).length = true) := by
          rw [hlen, hrc, hU2, hL2]; simpa using huc
        have ih2 := fun sb2 => ih (pre ++ [b]) sb2 uc hx2 hal2 hne hnew
        rw [hlen] at ih2
        have hp : snakePiece x pre.length = [b] := by
          simp only [snakePiece, hxb, hU2]
          simp
        rw [hp]
        simp only [hU2, hL2, hD, hpos, if_true, if_false, ih2, toByte_val]
        simp

/-- C1: for every non-empty string `x` over `[A-Za-z0-9]` whose first character is a
letter, `ToSnakeCase x` returns the in-order concatenation over the positions `i` of `x`
of: `_` and the lowercased letter when `x[i]` is an uppercase letter, `i > 0` and `x[i]` is
a word-start (the run counter is zero, or the next character exists, is lowercase and is
not an `s` in the last position); the lowercased letter alone for any other uppercase
letter; `x[i]` unchanged for a lowercase letter or a digit. -/
theorem ToSnakeCase_eq_snakeSpec (x : GoString) (hne : x ≠ [])
    (hal : ∀ b ∈ x, isAlnum b = true) (hfst : ∀ b, x.head? = some b → isLetter b = true) :
    ToSnakeCase x = .ok (snakeSpec x) := by
  have hd : startsWithDigit x = false := by
    cases x with
    | nil => exact absurd rfl hne
    | cons b bs =>
      have h := hfst b rfl
      simp [isLetter, isUppercase, isLowercase] at h
      simp [startsWithDigit, isDigit]
      omega
  have h := snakeLoop_spec x x [] [] 0 rfl hal (fun _ => hd)
    (by simp [runClear_zero])
  simpa [ToSnakeCase, rangeString, snakeSpec, List.range_eq_range'] using h

/-- Witness of C1 at `"ToSnakeCase"`, whose result is `"to_snake_case"`. -/
theorem ToSnakeCase_eq_snakeSpec_witness :
    ToSnakeCase (goStr "ToSnakeCase") = .ok (snakeSpec (goStr "ToSnakeCase"))
      ∧ snakeSpec (goStr "ToSnakeCase") = goStr "to_snake_case" :=
  ⟨ToSnakeCase_eq_snakeSpec (goStr "ToSnakeCase") (by decide) (by decide) (by decide),
    by decide⟩

/-- The loop of `NormTitleCase`, run on a suffix `suf` of alphanumeric bytes of the input
`pre ++ suf`, appends one character for each position of `suf`, the one the specification
describes. -/
theorem normLoop_spec (x : GoString) :
    ∀ (suf pre sb : GoString) (uc : Nat), x = pre ++ suf →
      (∀ b ∈ suf, isAlnum b = true) →
      (pre = [] → startsWithDigit suf = false) →
      (uc = 0 ↔ (pre.length = 0 ∨ upperAt x (pre.length - 1) = false)) →
      ∃ out : GoString, normLoop x (rangeFrom suf 0 pre.length) sb uc = .ok (sb ++ out)
        ∧ out.length = suf.length
        ∧ ∀ i b, suf[i]? = some b → out[i]? = some (normChar x (pre.length + i) b) := by
  intro suf
  induction suf with
  | nil =>
    intro pre sb uc _ _ _ _
    exact ⟨[], by simp [rangeFrom, normLoop], rfl, by simp⟩
  | cons b bs ih =>
    intro pre sb uc hx hal hfst huc
    have hb : isAlnum b = true := hal b (List.mem_cons_self _ _)
    have hlt : b.val < 128 := isAlnum_lt b hb
    have hxb : x[pre.length]? = some b := by rw [hx]; exact getElem?_at_length pre b bs
    have hx2 : x = (pre ++ [b]) ++ bs := by rw [hx]; simp
    have hal2 : ∀ c ∈ bs, isAlnum c = true := fun c hc => hal c (List.mem_cons_of_mem _ hc)
    have hne : pre ++ [b] = [] → startsWithDigit bs = false := by
      intro h; simp at h
    have hlen : (pre ++ [b]).length = pre.length + 1 := by simp
    have hup : upperAt x pre.length = isUppercase b.val := by simp [upperAt, hxb]
    -- the state of the counter after the step at this position
    have key : ∀ (ch : Byte) (uc2 : Nat), ch = normChar x pre.length b →
        (uc2 = 0 ↔ isUppercase b.val = false) →
        ∃ out : GoString, normLoop x (rangeFrom bs 0 (pre.length + 1)) (sb ++ [ch]) uc2
            = .ok (sb ++ out)
          ∧ out.length = (b :: bs).length
          ∧ ∀ i c, (b :: bs)[i]? = some c → out[i]? = some (normChar x (pre.length + i) c) := by
      intro ch uc2 hch huc2
      have hnew : (uc2 = 0 ↔
          ((pre ++ [b]).length = 0 ∨ upperAt x ((pre ++ [b]).length - 1) = false)) := by
        rw [hlen, Nat.add_sub_cancel, hup, huc2]
        simp
      obtain ⟨out, h1, h2, h3⟩ := ih (pre ++ [b]) (sb ++ [ch]) uc2 hx2 hal2 hne hnew
      rw [hlen] at h1 h3
      refine ⟨ch :: out, ?_, ?_, ?_⟩
      · rw [h1]; simp
      · simp [h2]
      · intro i c hic
        cases i with
        | zero =>
          simp at hic
          simp [hch, hic]
        | succ k =>
          rw [List.getElem?_cons_succ] at hic
          rw [List.getElem?_cons_succ, h3 k c hic]
          congr 2
          omega
    rw [rangeFrom_ascii b bs pre.length hlt]
    unfold normLoop
    by_cases hU : isUppercase b.val = true
    · have hlow : toByte (b.val - 65 + 97) = asciiLower b := by
        simp only [asciiLower, hU, if_true]
        congr 1
        simp [isUppercase] at hU
        omega
      simp only [hU, if_true]
      by_cases hc : uc = 0 ∨ nextIsLower x pre.length = true
      · have hws : normWordStart x pre.length = true := by
          simp only [normWordStart, Bool.or_eq_true, decide_eq_true_eq, Bool.not_eq_true']
          rcases hc with h | h
          · exact Or.inl (huc.mp h)
          · exact Or.inr (by rw [← nextIsLower_eq]; exact h)
        simp only [hc, if_true, toByte_val]
        exact key b (uc + 1) (by simp [normChar, hU, hws]) (by simp [hU])
      · have hws : normWordStart x pre.length = false := by
          rw [Bool.eq_false_iff]
          intro h
          simp only [normWordStart, Bool.or_eq_true, decide_eq_true_eq, Bool.not_eq_true'] at h
          apply hc
          rcases h with h | h
          · exact Or.inl (huc.mpr h)
          · exact Or.inr (by rw [nextIsLower_eq]; exact h)
        simp only [hc, if_false, hlow]
        exact key (asciiLower b) (uc + 1) (by simp [normChar, hU, hws]) (by simp [hU])
    · have hU2 : isUppercase b.val = false := by simpa using hU
      by_cases hL : isLowercase b.val = true
      · simp only [hU2, hL, if_true, toByte_val]
        simpa using key b 0 (by simp [normChar, hU2]) (by simp [hU2])
      · have hL2 : isLowercase b.val = false := by simpa using hL
        have hD : isDigit b.val = true := by
          simp only [isAlnum, hU2, hL2, Bool.false_or] at hb
          exact hb
        have hpos : pre.length ≠ 0 := by
          intro h0
          have hpre : pre = [] := List.length_eq_zero.mp h0
          have := hfst hpre
          simp [startsWithDigit, hD] at this
        simp only [hU2, hL2, hD, hpos, if_true, if_false, toByte_val]
        simpa using key b 0 (by simp [normChar, hU2]) (by simp [hU2])

/-- C2: for every string `x` over `[A-Za-z0-9]` whose first character is not a digit,
`NormTitleCase x` returns a string of the length of `x` whose character at every position
`i` is: for an uppercase `x[i]`, `x[i]` itself when it is a word-start (`i = 0`, or
`x[i-1]` is not an uppercase letter, or the next character exists, is lowercase and is not
an `s` in the last position) and the lowercased letter otherwise; `x[i]` for a lowercase
letter or a digit. -/
theorem NormTitleCase_pointwise (x : GoString) (hal : ∀ b ∈ x, isAlnum b = true)
    (hfst : startsWithDigit x = false) :
    ∃ y : GoString, NormTitleCase x = .ok y ∧ y.length = x.length
      ∧ ∀ i b, x[i]? = some b → y[i]? = some (normChar x i b) := by
  obtain ⟨out, h1, h2, h3⟩ := normLoop_spec x x [] [] 0 rfl hal (fun _ => hfst) (by simp)
  refine ⟨out, ?_, h2, ?_⟩
  · simpa [NormTitleCase, rangeString] using h1
  · intro i b hb
    simpa using h3 i b hb

/-- Witness of C2 at `"GRPCError2s"`. -/
theorem NormTitleCase_pointwise_witness :
    ∃ y : GoString, NormTitleCase (goStr "GRPCError2s") = .ok y
      ∧ y.length = (goStr "GRPCError2s").length
      ∧ ∀ i b, (goStr "GRPCError2s")[i]? = some b
          → y[i]? = some (normChar (goStr "GRPCError2s") i b) :=
  NormTitleCase_pointwise (goStr "GRPCError2s") (by decide) (by decide)

/-! ## `ToTitleCase` against the specification -/

theorem splitFrom_eq_go (sep : Byte) :
    ∀ (s cur : GoString),
      splitFrom sep s cur = List.splitOnP.go (fun b => b == sep) s cur.reverse := by
  intro s
  induction s with
  | nil => intro cur; simp [splitFrom, List.splitOnP.go]
  | cons b bs ih =>
    intro cur
    by_cases h : b = sep
    · have h0 := ih []
      simp only [List.reverse_nil] at h0
      simp [splitFrom, List.splitOnP.go, h, h0]
    · have h1 := ih (cur ++ [b])
      simp only [List.reverse_append, List.reverse_cons, List.reverse_nil, List.nil_append,
        List.singleton_append] at h1
      simp [splitFrom, List.splitOnP.go, h, h1]

theorem Split_eq_splitOn (s : GoString) (sep : Byte) : Split s sep = List.splitOn sep s := by
  simp [Split, List.splitOn, List.splitOnP, splitFrom_eq_go]

theorem splitFrom_mem (sep : Byte) :
    ∀ (s cur seg : GoString), seg ∈ splitFrom sep s cur →
      ∀ b ∈ seg, (b ∈ cur ∨ b ∈ s) ∧ (sep ∉ cur → b ≠ sep) := by
  intro s
  induction s with
  | nil =>
    intro cur seg hseg b hb
    simp only [splitFrom, List.mem_singleton] at hseg
    subst hseg
    exact ⟨Or.inl hb, fun hc hbs => hc (hbs ▸ hb)⟩
  | cons a as ih =>
    intro cur seg hseg b hb
    unfold splitFrom at hseg
    by_cases h : a = sep
    · simp only [h, if_true, List.mem_cons] at hseg
      rcases hseg with hseg | hseg
      · subst hseg
        exact ⟨Or.inl hb, fun hc hbs => hc (hbs ▸ hb)⟩
      · obtain ⟨h1, h2⟩ := ih [] seg hseg b hb
        refine ⟨?_, fun _ => h2 (by simp)⟩
        rcases h1 with h1 | h1
        · simp at h1
        · exact Or.inr (List.mem_cons_of_mem _ h1)
    · simp only [h, if_false] at hseg
      obtain ⟨h1, h2⟩ := ih (cur ++ [a]) seg hseg b hb
      refine ⟨?_, fun hc => h2 ?_⟩
      · rcases h1 with h1 | h1
        · rcases List.mem_append.mp h1 with h3 | h3
          · exact Or.inl h3
          · simp only [List.mem_singleton] at h3
            exact Or.inr (h3 ▸ List.mem_cons_self _ _)
        · exact Or.inr (List.mem_cons_of_mem _ h1)
      · intro hm
        rcases List.mem_append.mp hm with h3 | h3
        · exact hc h3
        · simp only [List.mem_singleton] at h3
          exact h h3.symm

theorem upperOfByte_ascii (b : Byte) (h : b.val < 128) : upperOfByte b = [asciiUpper b] := by
  unfold upperOfByte asciiUpper
  simp only [h, if_true]
  by_cases hl : 97 ≤ b.val ∧ b.val ≤ 122
  · simp [hl, isLowercase]
  · have : isLowercase b.val = false := by
      simp [isLowercase]
      omega
    simp [hl, this]

theorem titleLoop_spec :
    ∀ (segs : List GoString) (sb : GoString), (∀ seg ∈ segs, ∀ b ∈ seg, b.val < 128) →
      titleLoop segs sb
        = sb ++ ((segs.filter (fun seg => decide (seg ≠ []))).map capitalize).flatten := by
  intro segs
  induction segs with
  | nil => intro sb _; simp [titleLoop]
  | cons seg rest ih =>
    intro sb h
    have hrest : ∀ seg ∈ rest, ∀ b ∈ seg, b.val < 128 :=
      fun t ht => h t (List.mem_cons_of_mem _ ht)
    cases seg with
    | nil => simp [titleLoop, ih sb hrest]
    | cons s0 s1 =>
      have h0 : s0.val < 128 := h (s0 :: s1) (List.mem_cons_self _ _) s0 (List.mem_cons_self _ _)
      simp [titleLoop, ih _ hrest, upperOfByte_ascii s0 h0, capitalize]

theorem asciiUpper_ne_underscore (b : Byte) (h : b ≠ toByte 95) : asciiUpper b ≠ toByte 95 := by
  unfold asciiUpper
  by_cases hl : isLowercase b.val = true
  · simp only [hl, if_true]
    intro hc
    have := congrArg Fin.val hc
    simp [toByte, isLowercase] at this hl
    omega
  · simpa [hl] using h

/-- C3: for every ASCII string `s`, `ToTitleCase s` is the concatenation, in order and with
no separator, of the non-empty segments of `s` split on `_`, each with its first character
uppercased and its remainder unchanged; the result contains no `_`; and the result for the
empty string is the empty string. -/
theorem ToTitleCase_eq_titleSpec (s : GoString) (h : ∀ b ∈ s, b.val < 128) :
    ToTitleCase s = titleSpec s ∧ toByte 95 ∉ ToTitleCase s ∧ ToTitleCase [] = [] := by
  have hseg : ∀ seg ∈ Split s (toByte 95), ∀ b ∈ seg, b.val < 128 ∧ b ≠ toByte 95 := by
    intro seg hs b hb
    obtain ⟨h1, h2⟩ := splitFrom_mem (toByte 95) s [] seg hs b hb
    refine ⟨?_, h2 (by simp)⟩
    rcases h1 with h1 | h1
    · simp at h1
    · exact h b h1
  have heq : ToTitleCase s
      = (((Split s (toByte 95)).filter (fun seg => decide (seg ≠ []))).map capitalize).flatten := by
    have := titleLoop_spec (Split s (toByte 95)) [] (fun seg hs b hb => (hseg seg hs b hb).1)
    simpa [ToTitleCase] using this
  refine ⟨?_, ?_, by decide⟩
  · rw [heq, titleSpec, Split_eq_splitOn]
  · rw [heq]
    intro hmem
    simp only [List.mem_flatten, List.mem_map, List.mem_filter] at hmem
    obtain ⟨l, ⟨seg, ⟨hs, _⟩, hcap⟩, hl⟩ := hmem
    cases seg with
    | nil =>
      simp only [capitalize] at hcap
      rw [← hcap] at hl
      simp at hl
    | cons s0 s1 =>
      simp only [capitalize] at hcap
      rw [← hcap] at hl
      rcases List.mem_cons.mp hl with h1 | h1
      · exact asciiUpper_ne_underscore s0
          (hseg _ hs s0 (List.mem_cons_self _ _)).2 h1.symm
      · exact (hseg _ hs (toByte 95) (List.mem_cons_of_mem _ h1)).2 rfl

/-- Witness of C3 at `"to_title_case"`, whose result is `"ToTitleCase"`, with the result
`"AB"` for `"a__b"`. -/
theorem ToTitleCase_eq_titleSpec_witness :
    (ToTitleCase (goStr "to_title_case") = titleSpec (goStr "to_title_case")
        ∧ toByte 95 ∉ ToTitleCase (goStr "to_title_case") ∧ ToTitleCase [] = [])
      ∧ ToTitleCase (goStr "to_title_case") = goStr "ToTitleCase"
      ∧ ToTitleCase (goStr "a__b") = goStr "AB" :=
  ⟨ToTitleCase_eq_titleSpec (goStr "to_title_case") (by decide), by decide, by decide⟩

theorem first_cases (n : Nat) (h : 128 ≤ n) :
    first n = 0xF1 ∨ (first n = 0x02 ∧ 0xC2 ≤ n ∧ n < 0xE0)
      ∨ (first n = 0x13 ∧ n = 0xE0) ∨ (first n = 0x03 ∧ 0xE1 ≤ n ∧ n < 0xF0)
      ∨ (first n = 0x23 ∧ n = 0xED) ∨ (first n = 0x34 ∧ n = 0xF0)
      ∨ (first n = 0x04 ∧ 0xF1 ≤ n ∧ n < 0xF4) ∨ (first n = 0x44 ∧ n = 0xF4) := by
  unfold first
  split_ifs <;> simp <;> omega

/-- A sequence that starts with a byte outside ASCII never decodes to an ASCII rune. -/
theorem decodeRune_nonascii (b : Byte) (bs : GoString) (h : 128 ≤ b.val) :
    128 ≤ (decodeRune (b :: bs)).1 := by
  rcases first_cases b.val h with
    hf | ⟨hf, h1⟩ | ⟨hf, h1⟩ | ⟨hf, h1⟩ | ⟨hf, h1⟩ | ⟨hf, h1⟩ | ⟨hf, h1⟩ | ⟨hf, h1⟩
  · rw [decodeRune]
    simp only [hf, RuneError]
    rw [if_pos (by omega), if_neg (by omega)]
    show 128 ≤ 65533
    omega
  all_goals
    unfold decodeRune
    simp only [hf, acceptRanges, RuneError]
    repeat' split
    all_goals (try simp only [] at *)
    all_goals omega

/-- The first rune of a string is in one of the three classes exactly when its first byte
is. -/
theorem decodeRune_class (b : Byte) (bs : GoString) :
    isUppercase (decodeRune (b :: bs)).1 = isUppercase b.val
      ∧ isLowercase (decodeRune (b :: bs)).1 = isLowercase b.val
      ∧ isDigit (decodeRune (b :: bs)).1 = isDigit b.val := by
  by_cases h : b.val < 128
  · rw [decodeRune_ascii b bs h]
    exact ⟨rfl, rfl, rfl⟩
  · have h1 := decodeRune_nonascii b bs (by omega)
    generalize (decodeRune (b :: bs)).1 = c at h1 ⊢
    refine ⟨?_, ?_, ?_⟩ <;> rw [Bool.eq_iff_iff] <;>
      simp only [isUppercase, isLowercase, isDigit, Bool.and_eq_true, decide_eq_true_eq] <;>
      omega

theorem rangeFrom_cons_zero (b : Byte) (bs : GoString) (i : Nat) :
    rangeFrom (b :: bs) 0 i
      = (i, (decodeRune (b :: bs)).1) :: rangeFrom bs ((decodeRune (b :: bs)).2 - 1) (i + 1) := by
  simp [rangeFrom]

theorem rangeFrom_index :
    ∀ (s : GoString) (skip i : Nat), ∀ p ∈ rangeFrom s skip i, i ≤ p.1 := by
  intro s
  induction s with
  | nil => intro skip i p hp; simp [rangeFrom] at hp
  | cons b bs ih =>
    intro skip i p hp
    cases skip with
    | zero =>
      rw [rangeFrom_cons_zero] at hp
      rcases List.mem_cons.mp hp with h | h
      · rw [h]
      · exact Nat.le_of_succ_le (ih _ _ p h)
    | succ k =>
      simp only [rangeFrom] at hp
      exact Nat.le_of_succ_le (ih _ _ p hp)

/-! ## Failure of the scanners -/

theorem snakeLoop_leading (x : GoString) (b : Byte) (bs : GoString) (sb : GoString) (uc : Nat)
    (hd : isDigit b.val = true) :
    snakeLoop x (rangeFrom (b :: bs) 0 0) sb uc = .error .InvalidLeadingCharacter := by
  have hlt : b.val < 128 := by
    simp [isDigit] at hd; omega
  have hU : isUppercase b.val = false := by
    simp [isDigit, isUppercase] at hd ⊢; omega
  have hL : isLowercase b.val = false := by
    simp [isDigit, isLowercase] at hd ⊢; omega
  rw [rangeFrom_ascii b bs 0 hlt]
  simp [snakeLoop, hU, hL, hd]

theorem snakeLoop_invalid (x : GoString) :
    ∀ (suf sb : GoString) (n uc : Nat), (∃ b ∈ suf, isAlnum b = false) →
      (n = 0 → startsWithDigit suf = false) →
      snakeLoop x (rangeFrom suf 0 n) sb uc = .error .InvalidIdentifierCharacter := by
  intro suf
  induction suf with
  | nil => intro sb n uc h _; simp at h
  | cons b bs ih =>
    intro sb n uc hex hfst
    obtain ⟨hcU, hcL, hcD⟩ := decodeRune_class b bs
    rw [rangeFrom_cons_zero]
    unfold snakeLoop
    simp only [hcU, hcL, hcD]
    by_cases hb : isAlnum b = true
    · have hlt : b.val < 128 := isAlnum_lt b hb
      have hex2 : ∃ c ∈ bs, isAlnum c = false := by
        obtain ⟨c, hc, hcn⟩ := hex
        rcases List.mem_cons.mp hc with h | h
        · rw [h, hb] at hcn; cases hcn
        · exact ⟨c, h, hcn⟩
      have hw : (decodeRune (b :: bs)).2 - 1 = 0 := by simp [decodeRune_ascii b bs hlt]
      have ih2 := fun sb2 uc2 => ih sb2 (n + 1) uc2 hex2 (fun h => absurd h (Nat.succ_ne_zero n))
      rw [hw]
      by_cases hU : isUppercase b.val = true
      · simp only [hU, if_true]
        split <;> exact ih2 _ _
      · have hU2 : isUppercase b.val = false := by simpa using hU
        by_cases hL : isLowercase b.val = true
        · simp only [hU2, hL, if_true]
          exact ih2 _ _
        · have hL2 : isLowercase b.val = false := by simpa using hL
          have hD : isDigit b.val = true := by
            simp only [isAlnum, hU2, hL2, Bool.false_or] at hb
            exact hb
          have hpos : n ≠ 0 := by
            intro h0
            have := hfst h0
            simp [startsWithDigit, hD] at this
          simp only [hU2, hL2, hD, hpos, if_true, if_false]
          exact ih2 _ _
    · have hb2 : isAlnum b = false := by simpa using hb
      simp only [isAlnum, Bool.or_eq_false_iff] at hb2
      simp [hb2.1.1, hb2.1.2, hb2.2]

/-- C4: for every input string `x`, `ToSnakeCase x` returns a result iff every character
of `x` is in `[A-Za-z0-9]` and the first character of `x` (if any) is not a digit; it
fails with `InvalidLeadingCharacter` exactly when the first character is a digit, and with
`InvalidIdentifierCharacter` exactly when the first character is not a digit and some
character lies outside `[A-Za-z0-9]`. -/
theorem ToSnakeCase_result_iff (x : GoString) :
    ((∃ y, ToSnakeCase x = .ok y)
        ↔ ((∀ b ∈ x, isAlnum b = true) ∧ startsWithDigit x = false))
      ∧ (ToSnakeCase x = .error .InvalidLeadingCharacter ↔ startsWithDigit x = true)
      ∧ (ToSnakeCase x = .error .InvalidIdentifierCharacter
        ↔ (startsWithDigit x = false ∧ ∃ b ∈ x, isAlnum b = false)) := by
  by_cases hd : startsWithDigit x = true
  · have herr : ToSnakeCase x = .error .InvalidLeadingCharacter := by
      cases x with
      | nil => simp [startsWithDigit] at hd
      | cons b bs => exact snakeLoop_leading _ b bs [] 0 (by simpa [startsWithDigit] using hd)
    simp [herr, hd]
  · have hd2 : startsWithDigit x = false := by simpa using hd
    by_cases hal : ∀ b ∈ x, isAlnum b = true
    · have hok : ToSnakeCase x = .ok (snakeSpec x) := by
        have h := snakeLoop_spec x x [] [] 0 rfl hal (fun _ => hd2) (by simp [runClear_zero])
        simpa [ToSnakeCase, rangeString, snakeSpec, List.range_eq_range'] using h
      simp only [hok, hd2]
      refine ⟨by simpa using hal, by simp, ?_⟩
      simp only [reduceCtorEq, false_iff, true_and, not_exists, not_and]
      intro b hb
      simp [hal b hb]
    · have hex : ∃ b ∈ x, isAlnum b = false := by
        by_contra hne
        apply hal
        intro b hb
        by_contra hbn
        exact hne ⟨b, hb, by simpa using hbn⟩
      have herr : ToSnakeCase x = .error .InvalidIdentifierCharacter :=
        snakeLoop_invalid x x [] 0 0 hex (fun _ => hd2)
      simp only [herr, hd2]
      refine ⟨?_, by simp, ?_⟩
      · simp only [reduceCtorEq, exists_false, false_iff, and_true]
        exact hal
      · simp only [true_and, true_iff]
        exact hex

theorem normLoop_total (x : GoString) :
    ∀ (l : List (Nat × Nat)) (sb : GoString) (uc : Nat), (∀ p ∈ l, p.1 ≠ 0) →
      ∃ y, normLoop x l sb uc = .ok y := by
  intro l
  induction l with
  | nil => intro sb uc _; exact ⟨sb, rfl⟩
  | cons p rest ih =>
    intro sb uc h
    obtain ⟨i, c⟩ := p
    have hi : i ≠ 0 := h (i, c) (List.mem_cons_self _ _)
    have hrest : ∀ p ∈ rest, p.1 ≠ 0 := fun p hp => h p (List.mem_cons_of_mem _ hp)
    unfold normLoop
    simp only [hi, if_false]
    repeat' split
    all_goals exact ih _ _ hrest

/-- C5: for every input string `x`, `NormTitleCase x` fails iff the first character of `x`
is an ASCII digit, and the failure is then `InvalidLeadingCharacter`; on every other input,
the empty string and the strings with characters outside `[A-Za-z0-9]` included, it
returns a string.  `NormTitleCase "1Abc"` fails with `InvalidLeadingCharacter`. -/
theorem NormTitleCase_fails_iff (x : GoString) :
    ((∃ e, NormTitleCase x = .error e) ↔ startsWithDigit x = true)
      ∧ (∀ e, NormTitleCase x = .error e → e = .InvalidLeadingCharacter)
      ∧ ((∃ y, NormTitleCase x = .ok y) ↔ startsWithDigit x = false)
      ∧ NormTitleCase (goStr "1Abc") = .error .InvalidLeadingCharacter := by
  have key : (startsWithDigit x = true ∧ NormTitleCase x = .error .InvalidLeadingCharacter)
      ∨ (startsWithDigit x = false ∧ ∃ y, NormTitleCase x = .ok y) := by
    cases x with
    | nil => exact Or.inr ⟨rfl, [], rfl⟩
    | cons b bs =>
      obtain ⟨hcU, hcL, hcD⟩ := decodeRune_class b bs
      have hrest : ∀ p ∈ rangeFrom bs ((decodeRune (b :: bs)).2 - 1) (0 + 1), p.1 ≠ 0 := by
        intro p hp
        have := rangeFrom_index _ _ _ p hp
        omega
      have hgo := fun sb uc => normLoop_total (b :: bs) _ sb uc hrest
      unfold NormTitleCase rangeString
      rw [rangeFrom_cons_zero]
      unfold normLoop
      simp only [hcU, hcL, hcD, startsWithDigit]
      by_cases hD : isDigit b.val = true
      · have hU : isUppercase b.val = false := by
          simp [isDigit, isUppercase] at hD ⊢; omega
        have hL : isLowercase b.val = false := by
          simp [isDigit, isLowercase] at hD ⊢; omega
        left
        simp [hU, hL, hD]
      · have hD2 : isDigit b.val = false := by simpa using hD
        right
        refine ⟨hD2, ?_⟩
        by_cases hU : isUppercase b.val = true
        · simp only [hU, if_true]
          split <;> exact hgo _ _
        · have hU2 : isUppercase b.val = false := by simpa using hU
          by_cases hL : isLowercase b.val = true
          · simp only [hU2, hL, if_true]
            exact hgo _ _
          · have hL2 : isLowercase b.val = false := by simpa using hL
            simp only [hU2, hL2, hD2]
            exact hgo _ _
  refine ⟨?_, ?_, ?_, by decide⟩
  · rcases key with ⟨hd, he⟩ | ⟨hd, y, hy⟩
    · simp [hd, he]
    · simp [hd, hy]
  · intro e he
    rcases key with ⟨hd, he2⟩ | ⟨hd, y, hy⟩
    · rw [he2] at he
      injection he with he
      exact he.symm
    · rw [hy] at he
      cases he
  · rcases key with ⟨hd, he⟩ | ⟨hd, y, hy⟩
    · simp [hd, he]
    · simp [hd, hy]

/-! ## Runs of uppercase and of lowercase letters -/

/-- The lookahead at the position after the prefix `pre`, read off the rest of the
string. -/
theorem nextIsLower_append (pre : GoString) (b : Byte) (rest : GoString) :
    nextIsLower (pre ++ b :: rest) pre.length
      = match rest with
        | [] => false
        | c :: r => isLowercase c.val && !(decide (c.val = 115) && decide (r = [])) := by
  rw [nextIsLower_eq]
  unfold followedByLower
  cases rest with
  | nil =>
    have : (pre ++ [b])[pre.length + 1]? = none := List.getElem?_eq_none (by simp)
    simp [this]
  | cons c r =>
    have h1 : (pre ++ b :: c :: r)[pre.length + 1]? = some c := by
      rw [List.getElem?_append_right (by omega)]
      simp
    have h2 : (pre.length + 1 = (pre ++ b :: c :: r).length - 1) ↔ r = [] := by
      rw [← List.length_eq_zero]
      simp only [List.length_append, List.length_cons]
      omega
    simp only [h1]
    congr 3
    exact decide_eq_decide.mpr h2

/-- Inside or at the end of a run of uppercase letters that is followed by nothing, by a
character that is not a lowercase letter, or by a final `s`, the lookahead fails. -/
theorem nextIsLower_in_run (pre : GoString) (b : Byte) (U tl : GoString)
    (hU : ∀ c ∈ U, isUppercase c.val = true)
    (htl : ∀ c r, tl = c :: r → isLowercase c.val = false ∨ (c.val = 115 ∧ r = [])) :
    nextIsLower (pre ++ b :: (U ++ tl)) pre.length = false := by
  rw [nextIsLower_append]
  cases U with
  | nil =>
    cases tl with
    | nil => rfl
    | cons c r =>
      rcases htl c r rfl with h | ⟨h1, h2⟩
      · simp [h]
      · simp [h1, h2]
  | cons c U2 =>
    have hc := hU c (List.mem_cons_self _ _)
    have : isLowercase c.val = false := by
      simp [isUppercase, isLowercase] at hc ⊢; omega
    simp [this]

theorem lower_of_upper (b : Byte) (h : isUppercase b.val = true) :
    toByte (b.val - 65 + 97) = asciiLower b := by
  simp only [asciiLower, h, if_true]
  congr 1
  simp [isUppercase] at h
  omega

theorem upper_lt (b : Byte) (h : isUppercase b.val = true) : b.val < 128 := by
  simp [isUppercase] at h; omega

theorem lower_lt (b : Byte) (h : isLowercase b.val = true) : b.val < 128 := by
  simp [isLowercase] at h; omega

theorem lower_not_upper (b : Byte) (h : isLowercase b.val = true) :
    isUppercase b.val = false := by
  simp [isUppercase, isLowercase] at h ⊢; omega

/-- The loop of `ToSnakeCase` over a run of uppercase letters entered with a non-zero
counter and not followed by a boundary: every letter is lowercased, none gets a `_`. -/
theorem snakeLoop_upperRun (x : GoString) :
    ∀ (U pre tl sb : GoString) (uc : Nat), x = pre ++ (U ++ tl) →
      (∀ c ∈ U, isUppercase c.val = true) →
      (∀ c r, tl = c :: r → isLowercase c.val = false ∨ (c.val = 115 ∧ r = [])) →
      uc ≠ 0 →
      snakeLoop x (rangeFrom (U ++ tl) 0 pre.length) sb uc
        = snakeLoop x (rangeFrom tl 0 (pre.length + U.length)) (sb ++ U.map asciiLower)
            (uc + U.length) := by
  intro U
  induction U with
  | nil => intro pre tl sb uc _ _ _ _; simp
  | cons b U2 ih =>
    intro pre tl sb uc hx hU htl huc
    have hb := hU b (List.mem_cons_self _ _)
    have hU2 : ∀ c ∈ U2, isUppercase c.val = true := fun c hc => hU c (List.mem_cons_of_mem _ hc)
    have hnl : nextIsLower x pre.length = false := by
      rw [hx]; exact nextIsLower_in_run pre b U2 tl hU2 htl
    have hx2 : x = (pre ++ [b]) ++ (U2 ++ tl) := by rw [hx]; simp
    have ih2 := ih (pre ++ [b]) tl (sb ++ [asciiLower b]) (uc + 1) hx2 hU2 htl (Nat.succ_ne_zero _)
    rw [List.cons_append, rangeFrom_ascii b (U2 ++ tl) pre.length (upper_lt b hb)]
    rw [List.length_append, List.length_singleton] at ih2
    rw [snakeLoop, if_pos hb, if_neg (by simp [huc, hnl]), lower_of_upper b hb, ih2]
    simp [Nat.add_assoc, Nat.add_comm 1]

/-- The loop of `ToSnakeCase` over a final run of lowercase letters copies it. -/
theorem snakeLoop_lowerRun (x : GoString) :
    ∀ (L sb : GoString) (n uc : Nat), (∀ c ∈ L, isLowercase c.val = true) →
      snakeLoop x (rangeFrom L 0 n) sb uc = .ok (sb ++ L) := by
  intro L
  induction L with
  | nil => intro sb n uc _; simp [rangeFrom, snakeLoop]
  | cons b L2 ih =>
    intro sb n uc hL
    have hb := hL b (List.mem_cons_self _ _)
    have hL2 : ∀ c ∈ L2, isLowercase c.val = true := fun c hc => hL c (List.mem_cons_of_mem _ hc)
    rw [rangeFrom_ascii b L2 n (lower_lt b hb)]
    rw [snakeLoop, if_neg (by simp [lower_not_upper b hb]), if_pos hb, toByte_val,
      ih _ _ _ hL2]
    simp

/-- The loop of `NormTitleCase` over a run of uppercase letters entered with a non-zero
counter and not followed by a boundary: every letter is folded to lowercase. -/
theorem normLoop_upperRun (x : GoString) :
    ∀ (U pre tl sb : GoString) (uc : Nat), x = pre ++ (U ++ tl) →
      (∀ c ∈ U, isUppercase c.val = true) →
      (∀ c r, tl = c :: r → isLowercase c.val = false ∨ (c.val = 115 ∧ r = [])) →
      uc ≠ 0 →
      normLoop x (rangeFrom (U ++ tl) 0 pre.length) sb uc
        = normLoop x (rangeFrom tl 0 (pre.length + U.length)) (sb ++ U.map asciiLower)
            (uc + U.length) := by
  intro U
  induction U with
  | nil => intro pre tl sb uc _ _ _ _; simp
  | cons b U2 ih =>
    intro pre tl sb uc hx hU htl huc
    have hb := hU b (List.mem_cons_self _ _)
    have hU2 : ∀ c ∈ U2, isUppercase c.val = true := fun c hc => hU c (List.mem_cons_of_mem _ hc)
    have hnl : nextIsLower x pre.length = false := by
      rw [hx]; exact nextIsLower_in_run pre b U2 tl hU2 htl
    have hx2 : x = (pre ++ [b]) ++ (U2 ++ tl) := by rw [hx]; simp
    have ih2 := ih (pre ++ [b]) tl (sb ++ [asciiLower b]) (uc + 1) hx2 hU2 htl (Nat.succ_ne_zero _)
    rw [List.cons_append, rangeFrom_ascii b (U2 ++ tl) pre.length (upper_lt b hb)]
    rw [List.length_append, List.length_singleton] at ih2
    rw [normLoop, if_pos hb, if_neg (by simp [huc, hnl]), lower_of_upper b hb, ih2]
    simp [Nat.add_assoc, Nat.add_comm 1]

/-- The loop of `NormTitleCase` over a final run of lowercase letters copies it. -/
theorem normLoop_lowerRun (x : GoString) :
    ∀ (L sb : GoString) (n uc : Nat), (∀ c ∈ L, isLowercase c.val = true) →
      normLoop x (rangeFrom L 0 n) sb uc = .ok (sb ++ L) := by
  intro L
  induction L with
  | nil => intro sb n uc _; simp [rangeFrom, normLoop]
  | cons b L2 ih =>
    intro sb n uc hL
    have hb := hL b (List.mem_cons_self _ _)
    have hL2 : ∀ c ∈ L2, isLowercase c.val = true := fun c hc => hL c (List.mem_cons_of_mem _ hc)
    rw [rangeFrom_ascii b L2 n (lower_lt b hb)]
    rw [normLoop, if_neg (by simp [lower_not_upper b hb]), if_pos hb, toByte_val,
      ih _ _ _ hL2]
    simp

theorem snakeLoop_first (x : GoString) (u0 : Byte) (rest sb : GoString)
    (h : isUppercase u0.val = true) :
    snakeLoop x (rangeFrom (u0 :: rest) 0 0) sb 0
      = snakeLoop x (rangeFrom rest 0 1) (sb ++ [asciiLower u0]) 1 := by
  rw [rangeFrom_ascii u0 rest 0 (upper_lt u0 h), snakeLoop, if_pos h, if_neg (by simp),
    lower_of_upper u0 h]

theorem normLoop_first (x : GoString) (u0 : Byte) (rest sb : GoString)
    (h : isUppercase u0.val = true) :
    normLoop x (rangeFrom (u0 :: rest) 0 0) sb 0
      = normLoop x (rangeFrom rest 0 1) (sb ++ [u0]) 1 := by
  rw [rangeFrom_ascii u0 rest 0 (upper_lt u0 h), normLoop, if_pos h, if_pos (Or.inl rfl),
    toByte_val]

theorem goStr_s : goStr "s" = [toByte 115] := by decide

theorem goStr_underscore : goStr "_" = [toByte 95] := by decide

/-- C6 (trailing-`s` exception): for every non-empty string `U` of uppercase ASCII letters,
`ToSnakeCase (U ++ "s")` is the lowercased `U` followed by `s`, with no underscore, and
`NormTitleCase (U ++ "s")` is the first letter of `U`, the lowercased rest of `U` and `s`. -/
theorem trailing_s_exception (U : GoString) (hne : U ≠ [])
    (hU : ∀ b ∈ U, isUppercase b.val = true) :
    ToSnakeCase (U ++ goStr "s") = .ok (U.map asciiLower ++ goStr "s")
      ∧ NormTitleCase (U ++ goStr "s")
          = .ok (U.take 1 ++ (U.drop 1).map asciiLower ++ goStr "s") := by
  cases U with
  | nil => exact absurd rfl hne
  | cons u0 U2 =>
    have hu0 := hU u0 (List.mem_cons_self _ _)
    have hU2 : ∀ c ∈ U2, isUppercase c.val = true := fun c hc => hU c (List.mem_cons_of_mem _ hc)
    have htl : ∀ (c : Byte) (r : GoString), [toByte 115] = c :: r →
        isLowercase c.val = false ∨ (c.val = 115 ∧ r = []) := by
      intro c r h
      injection h with h1 h2
      exact Or.inr ⟨by rw [← h1]; rfl, h2.symm⟩
    have hs : ∀ c ∈ [toByte 115], isLowercase c.val = true := by
      intro c hc
      rw [List.mem_singleton.mp hc]
      rfl
    rw [goStr_s]
    constructor
    · have h1 := snakeLoop_upperRun (u0 :: (U2 ++ [toByte 115])) U2 [u0] [toByte 115]
        ([] ++ [asciiLower u0]) 1 rfl hU2 htl (by decide)
      simp only [List.length_singleton] at h1
      rw [ToSnakeCase, rangeString, List.cons_append, snakeLoop_first _ u0 _ _ hu0, h1,
        snakeLoop_lowerRun _ _ _ _ _ hs]
      simp
    · have h1 := normLoop_upperRun (u0 :: (U2 ++ [toByte 115])) U2 [u0] [toByte 115]
        ([] ++ [u0]) 1 rfl hU2 htl (by decide)
      simp only [List.length_singleton] at h1
      rw [NormTitleCase, rangeString, List.cons_append, normLoop_first _ u0 _ _ hu0, h1,
        normLoop_lowerRun _ _ _ _ _ hs]
      simp

/-- Witness of C6 at `"URL"`: `"URLs"` gives `"urls"` and `"Urls"`. -/
theorem trailing_s_exception_witness :
    (ToSnakeCase (goStr "URL" ++ goStr "s") = .ok ((goStr "URL").map asciiLower ++ goStr "s")
      ∧ NormTitleCase (goStr "URL" ++ goStr "s")
          = .ok ((goStr "URL").take 1 ++ ((goStr "URL").drop 1).map asciiLower ++ goStr "s"))
      ∧ ToSnakeCase (goStr "URLs") = .ok (goStr "urls")
      ∧ NormTitleCase (goStr "URLs") = .ok (goStr "Urls") :=
  ⟨trailing_s_exception (goStr "URL") (by decide) (by decide), by decide, by decide⟩

/-- The lookahead at an uppercase letter followed by a lowercase word other than `s`. -/
theorem nextIsLower_before_word (pre : GoString) (c : Byte) (L : GoString) (hLne : L ≠ [])
    (hL : ∀ b ∈ L, isLowercase b.val = true) (hs : L ≠ goStr "s") :
    nextIsLower (pre ++ c :: L) pre.length = true := by
  rw [nextIsLower_append]
  cases L with
  | nil => exact absurd rfl hLne
  | cons l0 r =>
    have h0 := hL l0 (List.mem_cons_self _ _)
    have h1 : ¬ (l0.val = 115 ∧ r = []) := by
      rintro ⟨ha, hb⟩
      apply hs
      rw [goStr_s, hb]
      congr 1
      exact Fin.ext ha
    simp only [h0, Bool.true_and, Bool.not_eq_true', Bool.and_eq_false_iff,
      decide_eq_false_iff_not]
    by_cases ha : l0.val = 115
    · exact Or.inr (fun hb => h1 ⟨ha, hb⟩)
    · exact Or.inl ha

/-- C7 (acronym boundary in `ToSnakeCase`): for every non-empty string `U` of uppercase
ASCII letters, every uppercase letter `c` and every non-empty string `L` of lowercase ASCII
letters other than `"s"`, `ToSnakeCase (U ++ c ++ L)` is the lowercased `U`, one `_`, the
lowercased `c` and `L`; the result holds exactly one underscore. -/
theorem ToSnakeCase_acronym (U : GoString) (c : Byte) (L : GoString) (hne : U ≠ [])
    (hU : ∀ b ∈ U, isUppercase b.val = true) (hc : isUppercase c.val = true) (hLne : L ≠ [])
    (hL : ∀ b ∈ L, isLowercase b.val = true) (hs : L ≠ goStr "s") :
    ToSnakeCase (U ++ c :: L) = .ok (U.map asciiLower ++ goStr "_" ++ asciiLower c :: L)
      ∧ (U.map asciiLower ++ goStr "_" ++ asciiLower c :: L).count (toByte 95) = 1 := by
  constructor
  · cases U with
    | nil => exact absurd rfl hne
    | cons u0 U2 =>
      have hu0 := hU u0 (List.mem_cons_self _ _)
      have hU2 : ∀ b ∈ U2, isUppercase b.val = true :=
        fun b hb => hU b (List.mem_cons_of_mem _ hb)
      have htl : ∀ (d : Byte) (r : GoString), c :: L = d :: r →
          isLowercase d.val = false ∨ (d.val = 115 ∧ r = []) := by
        intro d r h
        injection h with h1 h2
        left
        rw [← h1]
        simp [isUppercase, isLowercase] at hc ⊢
        omega
      have h1 := snakeLoop_upperRun (u0 :: (U2 ++ c :: L)) U2 [u0] (c :: L)
        ([] ++ [asciiLower u0]) 1 rfl hU2 htl (by decide)
      simp only [List.length_singleton] at h1
      have hnl : nextIsLower (u0 :: (U2 ++ c :: L)) (1 + U2.length) = true := by
        have := nextIsLower_before_word (u0 :: U2) c L hLne hL hs
        simpa [Nat.add_comm] using this
      rw [ToSnakeCase, rangeString, List.cons_append, snakeLoop_first _ u0 _ _ hu0, h1,
        rangeFrom_ascii c L _ (upper_lt c hc), snakeLoop, if_pos hc,
        if_pos ⟨by omega, Or.inr hnl⟩, lower_of_upper c hc, snakeLoop_lowerRun _ _ _ _ _ hL,
        goStr_underscore]
      simp
  · have h1 : (U.map asciiLower).count (toByte 95) = 0 := by
      rw [List.count_eq_zero]
      intro hm
      obtain ⟨b, hb, hbe⟩ := List.mem_map.mp hm
      have hb2 := hU b hb
      have := congrArg Fin.val hbe
      simp only [asciiLower, hb2, if_true, toByte] at this
      simp only [isUppercase, Bool.and_eq_true, decide_eq_true_eq] at hb2
      omega
    have h2 : L.count (toByte 95) = 0 := by
      rw [List.count_eq_zero]
      intro hm
      have : isLowercase (toByte 95).val = true := hL _ hm
      exact absurd this (by decide)
    have h3 : asciiLower c ≠ toByte 95 := by
      intro he
      have := congrArg Fin.val he
      simp only [asciiLower, hc, if_true, toByte] at this
      simp only [isUppercase, Bool.and_eq_true, decide_eq_true_eq] at hc
      omega
    rw [goStr_underscore, List.count_append, List.count_append, h1,
      List.count_cons_of_ne h3.symm, h2]
    simp

/-- Witness of C7 at `"HTML"`, `F`, `"ile"`: `"HTMLFile"` gives `"html_file"`. -/
theorem ToSnakeCase_acronym_witness :
    (ToSnakeCase (goStr "HTML" ++ toByte 70 :: goStr "ile")
        = .ok ((goStr "HTML").map asciiLower ++ goStr "_" ++ asciiLower (toByte 70) :: goStr "ile")
      ∧ ((goStr "HTML").map asciiLower ++ goStr "_"
          ++ asciiLower (toByte 70) :: goStr "ile").count (toByte 95) = 1)
      ∧ ToSnakeCase (goStr "HTMLFile") = .ok (goStr "html_file") :=
  ⟨ToSnakeCase_acronym (goStr "HTML") (toByte 70) (goStr "ile") (by decide) (by decide)
    (by decide) (by decide) (by decide) (by decide), by decide⟩

/-- C8 (acronym collapsing in `NormTitleCase`): for every non-empty string `U` of uppercase
ASCII letters, every uppercase letter `c` and every non-empty string `L` of lowercase ASCII
letters other than `"s"`, `NormTitleCase (U ++ c ++ L)` is the first letter of `U`, the
lowercased rest of `U`, `c` unchanged and `L`. -/
theorem NormTitleCase_acronym (U : GoString) (c : Byte) (L : GoString) (hne : U ≠ [])
    (hU : ∀ b ∈ U, isUppercase b.val = true) (hc : isUppercase c.val = true) (hLne : L ≠ [])
    (hL : ∀ b ∈ L, isLowercase b.val = true) (hs : L ≠ goStr "s") :
    NormTitleCase (U ++ c :: L) = .ok (U.take 1 ++ (U.drop 1).map asciiLower ++ c :: L) := by
  cases U with
  | nil => exact absurd rfl hne
  | cons u0 U2 =>
    have hu0 := hU u0 (List.mem_cons_self _ _)
    have hU2 : ∀ b ∈ U2, isUppercase b.val = true :=
      fun b hb => hU b (List.mem_cons_of_mem _ hb)
    have htl : ∀ (d : Byte) (r : GoString), c :: L = d :: r →
        isLowercase d.val = false ∨ (d.val = 115 ∧ r = []) := by
      intro d r h
      injection h with h1 h2
      left
      rw [← h1]
      simp [isUppercase, isLowercase] at hc ⊢
      omega
    have h1 := normLoop_upperRun (u0 :: (U2 ++ c :: L)) U2 [u0] (c :: L)
      ([] ++ [u0]) 1 rfl hU2 htl (by decide)
    simp only [List.length_singleton] at h1
    have hnl : nextIsLower (u0 :: (U2 ++ c :: L)) (1 + U2.length) = true := by
      have := nextIsLower_before_word (u0 :: U2) c L hLne hL hs
      simpa [Nat.add_comm] using this
    rw [NormTitleCase, rangeString, List.cons_append, normLoop_first _ u0 _ _ hu0, h1,
      rangeFrom_ascii c L _ (upper_lt c hc), normLoop, if_pos hc, if_pos (Or.inr hnl),
      toByte_val, normLoop_lowerRun _ _ _ _ _ hL]
    simp

/-- Witness of C8 at `"GRPC"`, `E`, `"rror"`: `"GRPCError"` gives `"GrpcError"`. -/
theorem NormTitleCase_acronym_witness :
    NormTitleCase (goStr "GRPC" ++ toByte 69 :: goStr "rror")
        = .ok ((goStr "GRPC").take 1 ++ ((goStr "GRPC").drop 1).map asciiLower
            ++ toByte 69 :: goStr "rror")
      ∧ NormTitleCase (goStr "GRPCError") = .ok (goStr "GrpcError") :=
  ⟨NormTitleCase_acronym (goStr "GRPC") (toByte 69) (goStr "rror") (by decide) (by decide)
    (by decide) (by decide) (by decide) (by decide), by decide⟩

/-! ## Decoding an encoded rune -/

theorem first_two (n : Nat) (h1 : 0xC2 ≤ n) (h2 : n < 0xE0) : first n = 0x02 := by
  unfold first
  split_ifs <;> omega

theorem first_three (n : Nat) (h1 : 0xE0 ≤ n) (h2 : n < 0xF0) :
    first n = if n = 0xE0 then 0x13 else if n = 0xED then 0x23 else 0x03 := by
  unfold first
  split_ifs <;> omega

theorem first_four (n : Nat) (h1 : 0xF0 ≤ n) (h2 : n ≤ 0xF4) :
    first n = if n = 0xF0 then 0x34 else if n = 0xF4 then 0x44 else 0x04 := by
  unfold first
  split_ifs <;> omega

theorem decodeRune_encode2 (r : Nat) (rest : GoString) (h1 : 0x7F < r) (h2 : r ≤ 0x7FF) :
    decodeRune (encodeRune r ++ rest) = (r, 2) := by
  have hf := first_two ((0xC0 + r / 64) % 256) (by omega) (by omega)
  unfold encodeRune
  rw [if_neg (by omega), if_pos h2]
  unfold decodeRune
  simp only [toByte, List.cons_append, List.nil_append, hf, acceptRanges, List.length_cons]
  rw [if_neg (by omega), if_neg (by omega), if_neg (by omega), if_pos (by omega)]
  congr 1
  omega

theorem decodeRune_encode3 (r : Nat) (rest : GoString) (h1 : 0x7FF < r) (h2 : r ≤ 0xFFFF)
    (h3 : ¬ (0xD800 ≤ r ∧ r ≤ 0xDFFF)) :
    decodeRune (encodeRune r ++ rest) = (r, 3) := by
  have hf := first_three ((0xE0 + r / 4096) % 256) (by omega) (by omega)
  unfold encodeRune
  rw [if_neg (by omega), if_neg (by omega), if_neg (by unfold MaxRune; omega), if_pos h2]
  unfold decodeRune
  simp only [toByte, List.cons_append, List.nil_append, List.length_cons]
  by_cases ha : (0xE0 + r / 4096) % 256 = 0xE0
  · rw [if_pos ha] at hf
    simp only [hf, acceptRanges, Nat.reduceDiv, Nat.reduceMod]
    rw [if_neg (by omega), if_neg (by omega), if_neg (by omega), if_neg (by omega),
      if_neg (by omega), if_pos (by omega)]
    congr 1
    omega
  · by_cases hb : (0xE0 + r / 4096) % 256 = 0xED
    · rw [if_neg ha, if_pos hb] at hf
      simp only [hf, acceptRanges, Nat.reduceDiv, Nat.reduceMod]
      rw [if_neg (by omega), if_neg (by omega), if_neg (by omega), if_neg (by omega),
        if_neg (by omega), if_pos (by omega)]
      congr 1
      omega
    · rw [if_neg ha, if_neg hb] at hf
      simp only [hf, acceptRanges, Nat.reduceDiv, Nat.reduceMod]
      rw [if_neg (by omega), if_neg (by omega), if_neg (by omega), if_neg (by omega),
        if_neg (by omega), if_pos (by omega)]
      congr 1
      omega

theorem decodeRune_encode4 (r : Nat) (rest : GoString) (h1 : 0xFFFF < r) (h2 : r ≤ 0x10FFFF) :
    decodeRune (encodeRune r ++ rest) = (r, 4) := by
  have hf := first_four ((0xF0 + r / 262144) % 256) (by omega) (by omega)
  unfold encodeRune
  rw [if_neg (by omega), if_neg (by omega), if_neg (by unfold MaxRune; omega),
    if_neg (by omega)]
  unfold decodeRune
  simp only [toByte, List.cons_append, List.nil_append, List.length_cons]
  by_cases ha : (0xF0 + r / 262144) % 256 = 0xF0
  · rw [if_pos ha] at hf
    simp only [hf, acceptRanges, Nat.reduceDiv, Nat.reduceMod]
    rw [if_neg (by omega), if_neg (by omega), if_neg (by omega), if_neg (by omega),
      if_neg (by omega), if_neg (by omega), if_neg (by omega)]
    congr 1
    omega
  · by_cases hb : (0xF0 + r / 262144) % 256 = 0xF4
    · rw [if_neg ha, if_pos hb] at hf
      simp only [hf, acceptRanges, Nat.reduceDiv, Nat.reduceMod]
      rw [if_neg (by omega), if_neg (by omega), if_neg (by omega), if_neg (by omega),
        if_neg (by omega), if_neg (by omega), if_neg (by omega)]
      congr 1
      omega
    · rw [if_neg ha, if_neg hb] at hf
      simp only [hf, acceptRanges, Nat.reduceDiv, Nat.reduceMod]
      rw [if_neg (by omega), if_neg (by omega), if_neg (by omega), if_neg (by omega),
        if_neg (by omega), if_neg (by omega), if_neg (by omega)]
      congr 1
      omega

theorem rangeFrom_skip :
    ∀ (pre rest : GoString) (i : Nat),
      rangeFrom (pre ++ rest) pre.length i = rangeFrom rest 0 (i + pre.length) := by
  intro pre
  induction pre with
  | nil => intro rest i; rfl
  | cons b bs ih =>
    intro rest i
    rw [List.cons_append, List.length_cons, rangeFrom, ih]
    congr 1
    omega

/-- Decoding the encoding of a Unicode scalar value gives the value back, with the width
of the encoding. -/
theorem decodeRune_encode (c : Char) (rest : GoString) :
    ∃ (b0 : Byte) (tl : GoString), encodeRune c.toNat = b0 :: tl
      ∧ decodeRune (encodeRune c.toNat ++ rest) = (c.toNat, tl.length + 1) := by
  have hv : c.toNat < 0xD800 ∨ (0xDFFF < c.toNat ∧ c.toNat < 0x110000) := c.valid
  generalize c.toNat = r at hv
  by_cases h1 : r ≤ 0x7F
  · refine ⟨toByte r, [], by simp [encodeRune, h1], ?_⟩
    have hb : (toByte r).val < 128 := by simp only [toByte]; omega
    have hr : (toByte r).val = r := by simp only [toByte]; omega
    have h := decodeRune_ascii (toByte r) rest hb
    rw [hr] at h
    simpa [encodeRune, h1] using h
  · by_cases h2 : r ≤ 0x7FF
    · refine ⟨_, _, by rw [encodeRune, if_neg h1, if_pos h2], ?_⟩
      exact decodeRune_encode2 r rest (by omega) h2
    · have hs : ¬ (r > MaxRune ∨ (0xD800 ≤ r ∧ r ≤ 0xDFFF)) := by
        unfold MaxRune; omega
      by_cases h3 : r ≤ 0xFFFF
      · refine ⟨_, _, by rw [encodeRune, if_neg h1, if_neg h2, if_neg hs, if_pos h3], ?_⟩
        exact decodeRune_encode3 r rest (by omega) h3 (by omega)
      · refine ⟨_, _, by rw [encodeRune, if_neg h1, if_neg h2, if_neg hs, if_neg h3], ?_⟩
        exact decodeRune_encode4 r rest (by omega) (by omega)

theorem rangeFrom_encode (c : Char) (rest : GoString) (i : Nat) :
    ∃ j, rangeFrom (encodeRune c.toNat ++ rest) 0 i = (i, c.toNat) :: rangeFrom rest 0 j := by
  obtain ⟨b0, tl, he, hd⟩ := decodeRune_encode c rest
  rw [he] at hd ⊢
  rw [List.cons_append] at hd ⊢
  rw [rangeFrom_cons_zero, hd]
  exact ⟨i + 1 + tl.length, by simp [rangeFrom_skip]⟩

/-- The conversion to runes of the encoding of a list of scalar values is that list. -/
theorem toRunes_encodeRunes :
    ∀ (cs : List Char) (i : Nat),
      (rangeFrom (encodeRunes (cs.map Char.toNat)) 0 i).map Prod.snd = cs.map Char.toNat := by
  intro cs
  induction cs with
  | nil => intro i; rfl
  | cons c cs ih =>
    intro i
    obtain ⟨j, hj⟩ := rangeFrom_encode c (encodeRunes (cs.map Char.toNat)) i
    simp only [List.map_cons, encodeRunes, hj, ih j]

/-- C9: for every well-formed string made of a first code point `c` and the code points
`rest`, `ToCamelCase` returns the encoding of the lowercased `c` followed by `rest`
unchanged; the lowercasing maps an ASCII `A`..`Z` to `a`..`z` and leaves any other ASCII
character unchanged; `ToCamelCase ""` is `""` and `ToCamelCase "ToCamelCase"` is
`"toCamelCase"`. -/
theorem ToCamelCase_lowers_first (lowerTable : Nat → Nat) (c : Char) (rest : List Char) :
    ToCamelCase lowerTable (goStr (String.mk (c :: rest)))
        = encodeRune (unicodeToLower lowerTable c.toNat) ++ goStr (String.mk rest)
      ∧ (∀ r, r ≤ 0x7F →
          unicodeToLower lowerTable r = if 65 ≤ r ∧ r ≤ 90 then r + 32 else r)
      ∧ ToCamelCase lowerTable [] = []
      ∧ ToCamelCase lowerTable (goStr "ToCamelCase") = goStr "toCamelCase" := by
  refine ⟨?_, ?_, rfl, rfl⟩
  · have hr := toRunes_encodeRunes (c :: rest) 0
    obtain ⟨b0, tl, he, _⟩ := decodeRune_encode c []
    have hne : goStr (String.mk (c :: rest)) ≠ [] := by
      simp [goStr, encodeRunes, he]
    unfold ToCamelCase
    rw [if_neg hne]
    have ht : toRunes (goStr (String.mk (c :: rest))) = c.toNat :: rest.map Char.toNat := by
      simpa [toRunes, rangeString, goStr] using hr
    rw [ht]
    simp [encodeRunes, goStr]
  · intro r hr
    simp [unicodeToLower, hr]

/-! ## `Normalize`: the lookup in the table of special letters -/

/-- For a rune above every entry of the table, `sort.Search` returns the length of the
table. -/
theorem searchPos_above (r : Nat) (h : 0x141 < r) : searchPos r = 3 := by
  have h1 : ¬ (r ≤ 0x111) := by omega
  have h2 : ¬ (r ≤ 0x141) := by omega
  simp [searchPos, sortSearch, sortSearchLoop, sortedSpecialRunes, h1, h2]

theorem substituteRune_above (r : Nat) (h : 0x141 < r) : substituteRune r = none := by
  simp [substituteRune, searchPos_above r h, sortedSpecialRunes]

theorem normalizeLoop_none :
    ∀ (l : List Nat) (sb : GoString) (r : Nat), r ∈ l → substituteRune r = none →
      normalizeLoop l sb = none := by
  intro l
  induction l with
  | nil => intro sb r hr _; simp at hr
  | cons a rs ih =>
    intro sb r hr hs
    unfold normalizeLoop
    rcases List.mem_cons.mp hr with h | h
    · rw [← h, hs]
    · cases ha : substituteRune a with
      | none => rfl
      | some w => exact ih _ r h hs

/-- C10 (defect): when a rune above `Ł` (`U+0141`) reaches the substitution step,
`sort.Search` returns the length of the table, the guard `pos != -1` holds, and indexing
`sortedSpecialRunes[pos]` is out of range: `Normalize` panics instead of returning a
string. -/
theorem Normalize_out_of_range (trimSpace transformString : GoString → GoString)
    (input : GoString) (r : Nat) (hr : r ∈ toRunes (transformString (trimSpace input)))
    (hgt : 0x141 < r) :
    searchPos r = sortedSpecialRunes.length ∧ sortedSpecialRunes[searchPos r]? = none
      ∧ Normalize trimSpace transformString input = none := by
  refine ⟨searchPos_above r hgt, ?_, ?_⟩
  · rw [searchPos_above r hgt]; rfl
  · exact normalizeLoop_none _ [] r hr (substituteRune_above r hgt)

/-- Witness of the defect at the input `"ł"` (`U+0142`), which trimming and the
decomposition chain leave unchanged. -/
theorem Normalize_out_of_range_witness :
    searchPos 0x142 = sortedSpecialRunes.length ∧ sortedSpecialRunes[searchPos 0x142]? = none
      ∧ Normalize id id (goStr "ł") = none :=
  Normalize_out_of_range id id (goStr "ł") 0x142 (by decide) (by decide)

/-! ## The lookahead helper -/

/-- C14: `nextIsLower input i` is true iff position `i + 1` exists in `input`, the byte
there is a lowercase ASCII letter, and it is not the case that this byte is `s` and
`i + 1` is the last position of `input`. -/
theorem nextIsLower_contract (input : GoString) (i : Nat) :
    nextIsLower input i = true ↔
      ∃ c, input[i + 1]? = some c ∧ isLowercase c.val = true
        ∧ ¬ (c.val = 115 ∧ i + 1 = input.length - 1) := by
  rw [nextIsLower_eq]
  unfold followedByLower
  cases h : input[i + 1]? with
  | none => simp
  | some c =>
    simp only [Bool.and_eq_true, Bool.not_eq_true', Bool.and_eq_false_iff,
      decide_eq_false_iff_not, Option.some.injEq, exists_eq_left', not_and]
    constructor
    · rintro ⟨h1, h2⟩
      refine ⟨h1, fun h3 h4 => ?_⟩
      rcases h2 with h2 | h2
      · exact h2 h3
      · exact h2 h4
    · rintro ⟨h1, h2⟩
      refine ⟨h1, ?_⟩
      by_cases h3 : c.val = 115
      · exact Or.inr (h2 h3)
      · exact Or.inl h3

/-- Counterexample to C20: `nextIsLower("HTMLFile", 1)` is not true. -/
theorem nextIsLower_HTMLFile_1_not_true : ¬ (nextIsLower (goStr "HTMLFile") 1 = true) := by
  decide

/-- C20 (amended): `nextIsLower("HTMLFile", 1)` returns false, because the byte after
offset 1 is the uppercase `M`; among the offsets of the uppercase letters of `"HTMLFile"`
the lookahead is true at offset 4 only, before `ile`, which is what makes
`ToSnakeCase("HTMLFile")` return `"html_file"`. -/
theorem nextIsLower_HTMLFile :
    nextIsLower (goStr "HTMLFile") 1 = false
      ∧ (∀ i, i ≤ 4 → (nextIsLower (goStr "HTMLFile") i = true ↔ i = 4))
      ∧ ToSnakeCase (goStr "HTMLFile") = .ok (goStr "html_file") := by
  refine ⟨by decide, ?_, by decide⟩
  intro i hi
  interval_cases i <;> decide

/-! ## Digits in the two scanners -/

theorem digit_lt (b : Byte) (h : isDigit b.val = true) : b.val < 128 := by
  simp [isDigit] at h; omega

theorem digit_not_upper (b : Byte) (h : isDigit b.val = true) : isUppercase b.val = false := by
  simp [isUppercase, isDigit] at h ⊢; omega

theorem digit_not_lower (b : Byte) (h : isDigit b.val = true) : isLowercase b.val = false := by
  simp [isLowercase, isDigit] at h ⊢; omega

/-- The loop of `ToSnakeCase` over a run of digits after offset 0 copies the digits and
leaves the counter as it is. -/
theorem snakeLoop_digitRun (x : GoString) :
    ∀ (D tl sb : GoString) (n uc : Nat), n ≠ 0 → (∀ c ∈ D, isDigit c.val = true) →
      snakeLoop x (rangeFrom (D ++ tl) 0 n) sb uc
        = snakeLoop x (rangeFrom tl 0 (n + D.length)) (sb ++ D) uc := by
  intro D
  induction D with
  | nil => intro tl sb n uc _ _; simp
  | cons b D2 ih =>
    intro tl sb n uc hn hD
    have hb := hD b (List.mem_cons_self _ _)
    have hD2 : ∀ c ∈ D2, isDigit c.val = true := fun c hc => hD c (List.mem_cons_of_mem _ hc)
    rw [List.cons_append, rangeFrom_ascii b (D2 ++ tl) n (digit_lt b hb), snakeLoop,
      if_neg (by simp [digit_not_upper b hb]), if_neg (by simp [digit_not_lower b hb]),
      if_pos hb, if_neg hn, toByte_val, ih tl _ (n + 1) uc (Nat.succ_ne_zero n) hD2]
    simp [Nat.add_assoc, Nat.add_comm 1]

/-- The loop of `NormTitleCase` over a non-empty run of digits after offset 0 copies the
digits and resets the counter. -/
theorem normLoop_digitRun (x : GoString) :
    ∀ (D tl sb : GoString) (n uc : Nat), n ≠ 0 → (∀ c ∈ D, isDigit c.val = true) →
      normLoop x (rangeFrom (D ++ tl) 0 n) sb uc
        = normLoop x (rangeFrom tl 0 (n + D.length)) (sb ++ D) (if D = [] then uc else 0) := by
  intro D
  induction D with
  | nil => intro tl sb n uc _ _; simp
  | cons b D2 ih =>
    intro tl sb n uc hn hD
    have hb := hD b (List.mem_cons_self _ _)
    have hD2 : ∀ c ∈ D2, isDigit c.val = true := fun c hc => hD c (List.mem_cons_of_mem _ hc)
    rw [List.cons_append, rangeFrom_ascii b (D2 ++ tl) n (digit_lt b hb), normLoop,
      if_neg (by simp [digit_not_upper b hb]), if_neg (by simp [digit_not_lower b hb]),
      if_pos hb, if_neg hn, toByte_val, ih tl _ (n + 1) 0 (Nat.succ_ne_zero n) hD2]
    simp [Nat.add_assoc, Nat.add_comm 1]

/-- C13 (digit asymmetry): for uppercase ASCII letters `a`, `b` and a non-empty string `d`
of ASCII digits, `ToSnakeCase (a ++ d ++ b)` is the lowercased `a`, `d` and the lowercased
`b`, with no underscore (the digits leave the counter non-zero), and
`NormTitleCase (a ++ d ++ b)` is `a ++ d ++ b` unchanged (the digits reset the counter). -/
theorem digit_asymmetry (a b : Byte) (d : GoString) (ha : isUppercase a.val = true)
    (hb : isUppercase b.val = true) (hne : d ≠ []) (hd : ∀ c ∈ d, isDigit c.val = true) :
    ToSnakeCase (a :: (d ++ [b])) = .ok (asciiLower a :: (d ++ [asciiLower b]))
      ∧ toByte 95 ∉ asciiLower a :: (d ++ [asciiLower b])
      ∧ NormTitleCase (a :: (d ++ [b])) = .ok (a :: (d ++ [b])) := by
  have hnl : nextIsLower (a :: (d ++ [b])) (1 + d.length) = false := by
    have := nextIsLower_append (a :: d) b []
    simpa [Nat.add_comm] using this
  refine ⟨?_, ?_, ?_⟩
  · rw [ToSnakeCase, rangeString, snakeLoop_first _ a _ _ ha,
      snakeLoop_digitRun _ d [b] _ 1 1 (by decide) hd,
      rangeFrom_ascii b [] _ (upper_lt b hb), snakeLoop, if_pos hb,
      if_neg (by simp [hnl]), lower_of_upper b hb]
    simp [rangeFrom, snakeLoop]
  · intro hm
    have hnu : ∀ c : Byte, isUppercase c.val = true → asciiLower c ≠ toByte 95 := by
      intro c hc he
      have := congrArg Fin.val he
      simp only [asciiLower, hc, if_true, toByte] at this
      simp only [isUppercase, Bool.and_eq_true, decide_eq_true_eq] at hc
      omega
    rcases List.mem_cons.mp hm with h | h
    · exact hnu a ha h.symm
    · rcases List.mem_append.mp h with h | h
      · have : isDigit (toByte 95).val = true := hd _ h
        exact absurd this (by decide)
      · exact hnu b hb (List.mem_singleton.mp h).symm
  · rw [NormTitleCase, rangeString, normLoop_first _ a _ _ ha,
      normLoop_digitRun _ d [b] _ 1 1 (by decide) hd, if_neg hne,
      rangeFrom_ascii b [] _ (upper_lt b hb), normLoop, if_pos hb,
      if_pos (Or.inl rfl), toByte_val]
    simp [rangeFrom, normLoop]

/-- Witness of C13 at `A`, `"1"`, `B`: `ToSnakeCase("A1B")` is `"a1b"` and
`NormTitleCase("A1B")` is `"A1B"`. -/
theorem digit_asymmetry_witness :
    (ToSnakeCase (toByte 65 :: (goStr "1" ++ [toByte 66]))
        = .ok (asciiLower (toByte 65) :: (goStr "1" ++ [asciiLower (toByte 66)]))
      ∧ toByte 95 ∉ asciiLower (toByte 65) :: (goStr "1" ++ [asciiLower (toByte 66)])
      ∧ NormTitleCase (toByte 65 :: (goStr "1" ++ [toByte 66]))
        = .ok (toByte 65 :: (goStr "1" ++ [toByte 66])))
      ∧ ToSnakeCase (goStr "A1B") = .ok (goStr "a1b")
      ∧ NormTitleCase (goStr "A1B") = .ok (goStr "A1B") :=
  ⟨digit_asymmetry (toByte 65) (toByte 66) (goStr "1") (by decide) (by decide) (by decide)
    (by decide), by decide, by decide⟩

/-! ## `Hash`: the key of the MAC -/

theorem hexDigit_inj (m n : Nat) (hm : m < 16) (hn : n < 16) (h : hexDigit m = hexDigit n) :
    m = n := by
  have := congrArg Fin.val h
  unfold hexDigit toByte at this
  split_ifs at this <;> simp only [] at this <;> omega

theorem hexEncode_inj : ∀ (a b : GoString), hexEncode a = hexEncode b → a = b := by
  intro a
  induction a with
  | nil =>
    intro b h
    cases b with
    | nil => rfl
    | cons c cs => simp [hexEncode] at h
  | cons x xs ih =>
    intro b h
    cases b with
    | nil => simp [hexEncode] at h
    | cons c cs =>
      simp only [hexEncode, List.cons.injEq] at h
      obtain ⟨h1, h2, h3⟩ := h
      have hx := x.isLt
      have hc := c.isLt
      have e1 := hexDigit_inj _ _ (by omega) (by omega) h1
      have e2 := hexDigit_inj _ _ (by omega) (by omega) h2
      have : x = c := Fin.ext (by omega)
      rw [this, ih cs h3]

theorem xorByte_inj (a b : Byte) (v : Nat) (hv : v < 256)
    (h : toByte (a.val ^^^ v) = toByte (b.val ^^^ v)) : a = b := by
  have ha : a.val ^^^ v < 256 := @Nat.xor_lt_two_pow _ _ 8 a.isLt hv
  have hb : b.val ^^^ v < 256 := @Nat.xor_lt_two_pow _ _ 8 b.isLt hv
  have h1 := congrArg Fin.val h
  simp only [toByte] at h1
  rw [Nat.mod_eq_of_lt ha, Nat.mod_eq_of_lt hb] at h1
  have h2 : (a.val ^^^ v) ^^^ v = (b.val ^^^ v) ^^^ v := by rw [h1]
  rw [Nat.xor_assoc, Nat.xor_assoc, Nat.xor_self, Nat.xor_zero, Nat.xor_zero] at h2
  exact Fin.ext h2

theorem xorPad_inj (v : Nat) (hv : v < 256) :
    ∀ (a b : GoString), xorPad a v = xorPad b v → a = b := by
  intro a
  induction a with
  | nil =>
    intro b h
    cases b with
    | nil => rfl
    | cons c cs => simp [xorPad] at h
  | cons x xs ih =>
    intro b h
    cases b with
    | nil => simp [xorPad] at h
    | cons c cs =>
      simp only [xorPad, List.map_cons, List.cons.injEq] at h
      rw [xorByte_inj x c v hv h.1, ih cs h.2]

theorem copyKey_length (key : GoString) : (copyKey key).length = blockSize := by
  simp only [copyKey, List.length_append, List.length_take, List.length_replicate]
  omega

theorem xorPad_length (pad : GoString) (v : Nat) : (xorPad pad v).length = pad.length := by
  simp [xorPad]

/-- Counterexample to C12: the empty key and the key made of one zero byte are distinct
and give the same digest for every payload, whatever the hash function. -/
theorem Hash_key_collision :
    ([] : GoString) ≠ [toByte 0]
      ∧ ∀ (sum : GoString → GoString) (p : GoString), Hash sum p [] = Hash sum p [toByte 0] := by
  refine ⟨by decide, fun sum p => ?_⟩
  have h1 : hmacKey sum [] = [] := by simp [hmacKey, blockSize]
  have h2 : hmacKey sum [toByte 0] = [toByte 0] := by simp [hmacKey, blockSize]
  have h3 : copyKey [] = copyKey [toByte 0] := by decide
  simp only [Hash, hmacSum, h1, h2, h3]

theorem hmacSum_eq (sum : GoString → GoString) (key msg : GoString) :
    hmacSum sum key msg = sum (hmacOuterInput sum key msg) := rfl

/-- C12 (amended): for every hash function, payload `p` and keys `k1`, `k2`, the outputs
`Hash(p, k1)` and `Hash(p, k2)` are equal exactly when the hash function gives the same
digest on the two outer inputs of the MAC, and these two inputs are equal exactly when the
two keys give the same HMAC block (the key, or the digest of a key longer than a block,
padded with zero bytes to the block size).  So a change of key changes the output unless
the two keys have the same block, as keys that differ by trailing zero bytes do, or the
hash function collides on two distinct inputs; two distinct keys of the same length of at
most one block have distinct blocks. -/
theorem Hash_key_dependence (sum : GoString → GoString) (p k1 k2 : GoString) :
    (Hash sum p k1 = Hash sum p k2
        ↔ sum (hmacOuterInput sum k1 p) = sum (hmacOuterInput sum k2 p))
      ∧ (hmacOuterInput sum k1 p = hmacOuterInput sum k2 p
        ↔ copyKey (hmacKey sum k1) = copyKey (hmacKey sum k2))
      ∧ (copyKey (hmacKey sum k1) = copyKey (hmacKey sum k2) → Hash sum p k1 = Hash sum p k2)
      ∧ (k1.length ≤ blockSize → k2.length ≤ blockSize →
          (copyKey (hmacKey sum k1) = copyKey (hmacKey sum k2)
            ↔ k1 ++ List.replicate (blockSize - k1.length) (toByte 0)
                = k2 ++ List.replicate (blockSize - k2.length) (toByte 0)))
      ∧ (k1.length = k2.length → k1.length ≤ blockSize → k1 ≠ k2 →
          copyKey (hmacKey sum k1) ≠ copyKey (hmacKey sum k2)) := by
  have hhex : Hash sum p k1 = Hash sum p k2
      ↔ sum (hmacOuterInput sum k1 p) = sum (hmacOuterInput sum k2 p) := by
    unfold Hash
    rw [hmacSum_eq, hmacSum_eq]
    exact ⟨fun h => hexEncode_inj _ _ h, fun h => by rw [h]⟩
  have hblock : hmacOuterInput sum k1 p = hmacOuterInput sum k2 p
      ↔ copyKey (hmacKey sum k1) = copyKey (hmacKey sum k2) := by
    constructor
    · intro h
      have hlen : (xorPad (copyKey (hmacKey sum k1)) 0x5c).length
          = (xorPad (copyKey (hmacKey sum k2)) 0x5c).length := by
        rw [xorPad_length, xorPad_length, copyKey_length, copyKey_length]
      exact xorPad_inj 0x5c (by decide) _ _ (List.append_inj h hlen).1
    · intro h
      simp only [hmacOuterInput, h]
  have hshort : ∀ k : GoString, k.length ≤ blockSize →
      copyKey (hmacKey sum k) = k ++ List.replicate (blockSize - k.length) (toByte 0) := by
    intro k hk
    have e : hmacKey sum k = k := by
      unfold hmacKey; rw [if_neg (by omega)]
    rw [e, copyKey, List.take_of_length_le hk]
  refine ⟨hhex, hblock, fun h => hhex.mpr (by rw [hblock.mpr h]), ?_, ?_⟩
  · intro h1 h2
    rw [hshort k1 h1, hshort k2 h2]
  · intro hl hle hne hc
    rw [hshort k1 hle, hshort k2 (by omega)] at hc
    exact hne (List.append_inj hc hl).1

/-- The amended C12 at the keys `"a"` and `"b"`, which have distinct blocks, and at the
keys `""` and `0x00`, which have the same block and so the same output, whatever the hash
function. -/
theorem Hash_key_dependence_witness :
    (∀ sum : GoString → GoString,
        copyKey (hmacKey sum (goStr "a")) ≠ copyKey (hmacKey sum (goStr "b")))
      ∧ (∀ (sum : GoString → GoString) (p : GoString),
        Hash sum p [] = Hash sum p [toByte 0]) :=
  ⟨fun sum => (Hash_key_dependence sum [] (goStr "a") (goStr "b")).2.2.2.2 (by decide)
      (by decide) (by decide),
    fun sum p => (Hash_key_dependence sum p [] [toByte 0]).2.2.1
      (by
        rw [show hmacKey sum [] = [] from rfl,
          show hmacKey sum [toByte 0] = [toByte 0] from rfl]
        decide)⟩

/-! ## `Normalize`: the substitution of the special letters -/

/-- For a rune up to `Ł` the lookup stays in the table and the body of the loop writes
what the specification says. -/
theorem substituteRune_le (r : Nat) (h : r ≤ 0x141) :
    substituteRune r = some (substituteSpec r) := by
  by_cases h1 : r ≤ 0x110
  · have h2 : r ≤ 0x111 := by omega
    have hp : searchPos r = 0 := by
      simp [searchPos, sortSearch, sortSearchLoop, sortedSpecialRunes, h1, h2]
    by_cases h3 : r = 0x110
    · subst h3
      decide
    · have h4 : r ≠ 0x111 := by omega
      have h5 : r ≠ 0x141 := by omega
      simp [substituteRune, hp, sortedSpecialRunes, replacedByRunes, substituteSpec, h3, h4, h5]
  · by_cases h2 : r ≤ 0x111
    · have hr : r = 0x111 := by omega
      subst hr
      decide
    · have hp : searchPos r = 2 := by
        simp [searchPos, sortSearch, sortSearchLoop, sortedSpecialRunes, h1, h2, h]
      have h3 : r ≠ 0x110 := by omega
      have h4 : r ≠ 0x111 := by omega
      by_cases h5 : r = 0x141
      · subst h5
        decide
      · simp [substituteRune, hp, sortedSpecialRunes, replacedByRunes, substituteSpec, h3, h4,
          h5]

theorem normalizeLoop_some :
    ∀ (l : List Nat) (sb : GoString), (∀ r ∈ l, r ≤ 0x141) →
      normalizeLoop l sb = some (sb ++ encodeRunes (l.map substituteSpec)) := by
  intro l
  induction l with
  | nil => intro sb _; simp [normalizeLoop, encodeRunes]
  | cons a rs ih =>
    intro sb h
    have ha := h a (List.mem_cons_self _ _)
    have hrs : ∀ r ∈ rs, r ≤ 0x141 := fun r hr => h r (List.mem_cons_of_mem _ hr)
    rw [normalizeLoop, substituteRune_le a ha]
    simp only [ih _ hrs, List.map_cons, encodeRunes, List.append_assoc]

/-- The loop of `Normalize` returns exactly when no rune is above `Ł`. -/
theorem normalizeLoop_le (l : List Nat) (sb y : GoString) (h : normalizeLoop l sb = some y) :
    ∀ r ∈ l, r ≤ 0x141 := by
  intro r hr
  by_contra hgt
  have := normalizeLoop_none l sb r hr (substituteRune_above r (by omega))
  rw [this] at h
  cases h

theorem substituteSpec_le (r : Nat) (h : r ≤ 0x141) : substituteSpec r ≤ 0x141 := by
  unfold substituteSpec
  split_ifs <;> omega

theorem substituteSpec_ne (r : Nat) :
    substituteSpec r ≠ 0x110 ∧ substituteSpec r ≠ 0x111 ∧ substituteSpec r ≠ 0x141 := by
  unfold substituteSpec
  split_ifs <;> omega

/-- The conversion to runes of the encoding of runes below the surrogates is the list of
these runes. -/
theorem toRunes_encodeRunes_small (rs : List Nat) (h : ∀ r ∈ rs, r < 0xD800) :
    toRunes (encodeRunes rs) = rs := by
  have hc : rs = (rs.map Char.ofNat).map Char.toNat := by
    rw [List.map_map]
    symm
    calc rs.map (Char.toNat ∘ Char.ofNat) = rs.map id := by
          apply List.map_congr_left
          intro r hr
          have hv : r.isValidChar := Or.inl (h r hr)
          simp only [Function.comp, Char.ofNat, hv, dif_pos, Char.toNat, Char.ofNatAux, id]
          rfl
      _ = rs := List.map_id rs
  rw [hc]
  exact toRunes_encodeRunes (rs.map Char.ofNat) 0

theorem toRunes_goStr (s : List Char) : toRunes (goStr (String.mk s)) = s.map Char.toNat :=
  toRunes_encodeRunes s 0

theorem isLetterOrSpecial_le (c : Char) (h : isLetterOrSpecial c = true) : c.toNat ≤ 0x141 := by
  simp only [isLetterOrSpecial, isUppercase, isLowercase, Bool.or_eq_true, Bool.and_eq_true,
    decide_eq_true_eq] at h
  omega

/-- C11: whenever `Normalize` returns a result, the result is the trimmed and
diacritic-stripped input (the value of `transformString (trimSpace input)`, both library
code) with every `Đ` replaced by `D`, every `đ` by `d`, every `Ł` by `L` and every other
code point unchanged, and it contains none of `Đ`, `đ`, `Ł`.  In particular, for a string
`s` of ASCII letters and special letters surrounded by spaces, which the library trims to
`s` and whose diacritic stripping is `s` itself, `Normalize` returns `s` with the three
letters substituted.  With `"  Đăng  "` trimmed and stripped to `"Đang"`, the result is
`"Dang"`. -/
theorem Normalize_result (trimSpace transformString : GoString → GoString) :
    (∀ input y, Normalize trimSpace transformString input = some y →
        y = encodeRunes ((toRunes (transformString (trimSpace input))).map substituteSpec)
          ∧ toRunes y = (toRunes (transformString (trimSpace input))).map substituteSpec
          ∧ 0x110 ∉ toRunes y ∧ 0x111 ∉ toRunes y ∧ 0x141 ∉ toRunes y)
      ∧ (∀ (s : List Char) (n m : Nat), (∀ c ∈ s, isLetterOrSpecial c = true) →
          trimSpace (List.replicate n (toByte 32) ++ goStr (String.mk s)
            ++ List.replicate m (toByte 32)) = goStr (String.mk s) →
          transformString (goStr (String.mk s)) = goStr (String.mk s) →
          ∃ y, Normalize trimSpace transformString (List.replicate n (toByte 32)
                ++ goStr (String.mk s) ++ List.replicate m (toByte 32)) = some y
            ∧ y = encodeRunes (s.map fun c => substituteSpec c.toNat)
            ∧ toRunes y = s.map (fun c => substituteSpec c.toNat)
            ∧ 0x110 ∉ toRunes y ∧ 0x111 ∉ toRunes y ∧ 0x141 ∉ toRunes y)
      ∧ (transformString (trimSpace (goStr "  Đăng  ")) = goStr "Đang" →
          Normalize trimSpace transformString (goStr "  Đăng  ") = some (goStr "Dang")) := by
  have key : ∀ (l : List Nat) (y : GoString), (∀ r ∈ l, r ≤ 0x141) →
      y = encodeRunes (l.map substituteSpec) →
      toRunes y = l.map substituteSpec
        ∧ 0x110 ∉ toRunes y ∧ 0x111 ∉ toRunes y ∧ 0x141 ∉ toRunes y := by
    intro l y hle hy
    have ht : toRunes y = l.map substituteSpec := by
      rw [hy]
      apply toRunes_encodeRunes_small
      intro r hr
      obtain ⟨a, ha, hra⟩ := List.mem_map.mp hr
      have := substituteSpec_le a (hle a ha)
      omega
    rw [ht]
    refine ⟨rfl, ?_, ?_, ?_⟩ <;> intro hm <;> obtain ⟨a, _, hra⟩ := List.mem_map.mp hm
    · exact (substituteSpec_ne a).1 hra
    · exact (substituteSpec_ne a).2.1 hra
    · exact (substituteSpec_ne a).2.2 hra
  refine ⟨?_, ?_, ?_⟩
  · intro input y h
    unfold Normalize at h
    have hle := normalizeLoop_le _ _ _ h
    rw [normalizeLoop_some _ _ hle] at h
    have hy : y = encodeRunes ((toRunes (transformString (trimSpace input))).map substituteSpec) := by
      simpa using (Option.some.inj h).symm
    exact ⟨hy, key _ y hle hy⟩
  · intro s n m hs htrim htr
    have hle : ∀ r ∈ s.map Char.toNat, r ≤ 0x141 := by
      intro r hr
      obtain ⟨c, hc, hrc⟩ := List.mem_map.mp hr
      rw [← hrc]
      exact isLetterOrSpecial_le c (hs c hc)
    have hmap : (s.map Char.toNat).map substituteSpec = s.map (fun c => substituteSpec c.toNat) := by
      rw [List.map_map]; rfl
    refine ⟨encodeRunes (s.map fun c => substituteSpec c.toNat), ?_, rfl, ?_⟩
    · unfold Normalize
      rw [htrim, htr, toRunes_goStr, normalizeLoop_some _ _ hle, hmap]
      simp
    · have := key (s.map Char.toNat) (encodeRunes (s.map fun c => substituteSpec c.toNat)) hle
        (by rw [hmap])
      rw [hmap] at this
      exact this
  · intro h
    unfold Normalize
    rw [h]
    decide

/-- Witness of C11 with stand-ins for the two library functions that agree with them at
`"  Đăng  "`: trimming of the spaces at both ends, and `"Đăng"` stripped to `"Đang"`. -/
theorem Normalize_result_witness :
    Normalize
        (fun s => ((s.dropWhile fun b => decide (b = toByte 32)).reverse.dropWhile
          fun b => decide (b = toByte 32)).reverse)
        (fun s => if s = goStr "Đăng" then goStr "Đang" else s)
        (goStr "  Đăng  ") = some (goStr "Dang") :=
  (Normalize_result _ _).2.2 (by decide)

/-! ## The shape of the output of `ToSnakeCase` -/

theorem followed_cons (c : Byte) (out : GoString) (hc : c ≠ toByte 95)
    (h : ∀ i, out[i]? = some (toByte 95) → ∃ d, out[i + 1]? = some d ∧ isLowercase d.val = true) :
    ∀ i, (c :: out)[i]? = some (toByte 95) →
      ∃ d, (c :: out)[i + 1]? = some d ∧ isLowercase d.val = true := by
  intro i hi
  cases i with
  | zero =>
    simp only [List.getElem?_cons_zero, Option.some.injEq] at hi
    exact absurd hi hc
  | succ k =>
    rw [List.getElem?_cons_succ] at hi
    rw [List.getElem?_cons_succ]
    exact h k hi

theorem lowercase_ne_underscore (c : Byte) (h : isLowercase c.val = true) : c ≠ toByte 95 := by
  intro he
  rw [he] at h
  exact absurd h (by decide)

/-- What the loop of `ToSnakeCase` appends to the builder, when it returns: characters of
`[a-z0-9_]` in which every `_` is immediately followed by a lowercase letter, and which
start with `_` only when the first offset is not 0. -/
theorem snakeLoop_shape (x : GoString) :
    ∀ (l : List (Nat × Nat)) (sb : GoString) (uc : Nat) (y : GoString),
      snakeLoop x l sb uc = .ok y →
      ∃ out, y = sb ++ out
        ∧ (∀ c ∈ out, isLowercase c.val = true ∨ isDigit c.val = true ∨ c = toByte 95)
        ∧ (∀ i, out[i]? = some (toByte 95) →
            ∃ d, out[i + 1]? = some d ∧ isLowercase d.val = true)
        ∧ (out.head? = some (toByte 95) → ∀ p, l.head? = some p → p.1 > 0) := by
  intro l
  induction l with
  | nil =>
    intro sb uc y h
    simp only [snakeLoop, Except.ok.injEq] at h
    exact ⟨[], by simp [h], by simp, by simp, by simp⟩
  | cons p rest ih =>
    intro sb uc y h
    obtain ⟨i, c⟩ := p
    rw [snakeLoop] at h
    by_cases hU : isUppercase c = true
    · rw [if_pos hU] at h
      have hlow : isLowercase (toByte (c - 65 + 97)).val = true := by
        simp only [isUppercase, Bool.and_eq_true, decide_eq_true_eq] at hU
        simp only [isLowercase, toByte, Bool.and_eq_true, decide_eq_true_eq]
        omega
      have hne := lowercase_ne_underscore _ hlow
      by_cases hc : i > 0 ∧ (uc = 0 ∨ nextIsLower x i = true)
      · rw [if_pos hc] at h
        obtain ⟨out, h1, h2, h3, _⟩ := ih _ _ _ h
        refine ⟨toByte 95 :: toByte (c - 65 + 97) :: out, by simp [h1], ?_, ?_, ?_⟩
        · intro d hd
          rcases List.mem_cons.mp hd with hd | hd
          · exact Or.inr (Or.inr hd)
          · rcases List.mem_cons.mp hd with hd | hd
            · exact Or.inl (hd ▸ hlow)
            · exact h2 d hd
        · intro k hk
          cases k with
          | zero => exact ⟨_, by simp, hlow⟩
          | succ k =>
            rw [List.getElem?_cons_succ] at hk
            rw [List.getElem?_cons_succ]
            exact followed_cons _ out hne h3 k hk
        · intro _ q hq
          simp only [List.head?_cons, Option.some.injEq] at hq
          rw [← hq]
          exact hc.1
      · rw [if_neg hc] at h
        obtain ⟨out, h1, h2, h3, _⟩ := ih _ _ _ h
        refine ⟨toByte (c - 65 + 97) :: out, by simp [h1], ?_, followed_cons _ out hne h3, ?_⟩
        · intro d hd
          rcases List.mem_cons.mp hd with hd | hd
          · exact Or.inl (hd ▸ hlow)
          · exact h2 d hd
        · intro hh
          simp only [List.head?_cons, Option.some.injEq] at hh
          exact absurd hh hne
    · rw [if_neg hU] at h
      by_cases hL : isLowercase c = true
      · rw [if_pos hL] at h
        have hlow : isLowercase (toByte c).val = true := by
          simp only [isLowercase, Bool.and_eq_true, decide_eq_true_eq] at hL
          simp only [isLowercase, toByte, Bool.and_eq_true, decide_eq_true_eq]
          omega
        have hne := lowercase_ne_underscore _ hlow
        obtain ⟨out, h1, h2, h3, _⟩ := ih _ _ _ h
        refine ⟨toByte c :: out, by simp [h1], ?_, followed_cons _ out hne h3, ?_⟩
        · intro d hd
          rcases List.mem_cons.mp hd with hd | hd
          · exact Or.inl (hd ▸ hlow)
          · exact h2 d hd
        · intro hh
          simp only [List.head?_cons, Option.some.injEq] at hh
          exact absurd hh hne
      · rw [if_neg hL] at h
        by_cases hD : isDigit c = true
        · rw [if_pos hD] at h
          by_cases h0 : i = 0
          · rw [if_pos h0] at h
            cases h
          · rw [if_neg h0] at h
            have hdig : isDigit (toByte c).val = true := by
              simp only [isDigit, Bool.and_eq_true, decide_eq_true_eq] at hD
              simp only [isDigit, toByte, Bool.and_eq_true, decide_eq_true_eq]
              omega
            have hne : toByte c ≠ toByte 95 := by
              intro he
              rw [he] at hdig
              exact absurd hdig (by decide)
            obtain ⟨out, h1, h2, h3, _⟩ := ih _ _ _ h
            refine ⟨toByte c :: out, by simp [h1], ?_, followed_cons _ out hne h3, ?_⟩
            · intro d hd
              rcases List.mem_cons.mp hd with hd | hd
              · exact Or.inr (Or.inl (hd ▸ hdig))
              · exact h2 d hd
            · intro hh
              simp only [List.head?_cons, Option.some.injEq] at hh
              exact absurd hh hne
        · rw [if_neg hD] at h
          cases h

/-- C17: whenever `ToSnakeCase x` returns a result `y`, every character of `y` is in
`[a-z0-9_]`, `y` does not begin with `_`, does not end with `_`, holds no two adjacent
`_`, and every `_` of `y` is immediately followed by a lowercase letter. -/
theorem ToSnakeCase_well_formed (x y : GoString) (h : ToSnakeCase x = .ok y) :
    (∀ c ∈ y, isLowercase c.val = true ∨ isDigit c.val = true ∨ c = toByte 95)
      ∧ y.head? ≠ some (toByte 95)
      ∧ y.getLast? ≠ some (toByte 95)
      ∧ (∀ i, y[i]? = some (toByte 95) → y[i + 1]? ≠ some (toByte 95))
      ∧ (∀ i, y[i]? = some (toByte 95) →
          ∃ d, y[i + 1]? = some d ∧ isLowercase d.val = true) := by
  obtain ⟨out, h1, h2, h3, h4⟩ := snakeLoop_shape x _ _ _ _ h
  simp only [List.nil_append] at h1
  subst h1
  refine ⟨h2, ?_, ?_, ?_, h3⟩
  · intro hh
    cases x with
    | nil =>
      simp [ToSnakeCase, rangeString, rangeFrom, snakeLoop] at h
      rw [h] at hh
      simp at hh
    | cons b bs =>
      have := h4 hh (0, (decodeRune (b :: bs)).1) (by simp [rangeString, rangeFrom])
      simp at this
  · intro hh
    rw [List.getLast?_eq_getElem?] at hh
    obtain ⟨d, hd, _⟩ := h3 _ hh
    have hlen : y.length - 1 + 1 < y.length := by
      by_contra hge
      rw [List.getElem?_eq_none (by omega)] at hd
      cases hd
    have : y.length ≠ 0 := by
      intro h0
      rw [h0] at hlen
      omega
    omega
  · intro i hi hi2
    obtain ⟨d, hd, hl⟩ := h3 i hi
    rw [hd] at hi2
    exact lowercase_ne_underscore d hl (Option.some.inj hi2)

/-- Witness of C17 at `"HTMLFile2URLs"`. -/
theorem ToSnakeCase_well_formed_witness :
    ToSnakeCase (goStr "HTMLFile2URLs") = .ok (goStr "html_file2_urls")
      ∧ (goStr "html_file2_urls").head? ≠ some (toByte 95)
      ∧ (goStr "html_file2_urls").getLast? ≠ some (toByte 95) :=
  ⟨by decide,
    (ToSnakeCase_well_formed (goStr "HTMLFile2URLs") (goStr "html_file2_urls") (by decide)).2.1,
    (ToSnakeCase_well_formed (goStr "HTMLFile2URLs") (goStr "html_file2_urls") (by decide)).2.2.1⟩

/-! ## `NormTitleCase` on arbitrary input -/

theorem first_values (n : Nat) :
    first n = 0xF0 ∨ first n = 0xF1 ∨ first n = 0x02 ∨ first n = 0x13 ∨ first n = 0x03
      ∨ first n = 0x23 ∨ first n = 0x34 ∨ first n = 0x04 ∨ first n = 0x44 := by
  unfold first
  split_ifs <;> simp

theorem first_accept (n : Nat) (h : first n < 0xF0) : 128 ≤ (acceptRanges (first n / 16)).1 := by
  rcases first_values n with h1 | h1 | h1 | h1 | h1 | h1 | h1 | h1 | h1 <;> rw [h1] at h ⊢ <;>
    first
      | omega
      | decide

/-- The bytes of a decoded sequence after its first byte are continuation bytes, outside
ASCII. -/
theorem decodeRune_cont (b : Byte) (bs : GoString) (j : Nat) (c : Byte)
    (hj : j + 1 < (decodeRune (b :: bs)).2) (hc : bs[j]? = some c) : 128 ≤ c.val := by
  have ha := first_accept b.val
  revert hj hc
  unfold decodeRune
  simp only []
  generalize first b.val = x at ha ⊢
  by_cases hx : x ≥ 0xF0
  · rw [if_pos hx]
    intro hj
    simp at hj
  · rw [if_neg hx]
    have ha2 := ha (by omega)
    generalize acceptRanges (x / 16) = acc at ha2 ⊢
    repeat' split
    all_goals intro hj hc
    all_goals (try simp only [] at hj)
    all_goals first
      | omega
      | (rcases j with _ | _ | _ | j <;>
          simp only [List.getElem?_cons_zero, List.getElem?_cons_succ, Option.some.injEq] at hc <;>
          first
            | omega
            | (subst hc; omega))

theorem asciiLower_idem (b : Byte) : asciiLower (asciiLower b) = asciiLower b := by
  by_cases h : isUppercase b.val = true
  · have h2 : isUppercase (toByte (b.val + 32)).val = false := by
      simp only [isUppercase, Bool.and_eq_true, decide_eq_true_eq] at h
      simp only [isUppercase, toByte, Bool.and_eq_false_iff, decide_eq_false_iff_not]
      omega
    simp [asciiLower, h, h2]
  · simp [asciiLower, h]

theorem asciiLower_alnum (b : Byte) (h : isAlnum b = true) : isAlnum (asciiLower b) = true := by
  by_cases hU : isUppercase b.val = true
  · have h2 : isLowercase (toByte (b.val + 32)).val = true := by
      simp only [isUppercase, Bool.and_eq_true, decide_eq_true_eq] at hU
      simp only [isLowercase, toByte, Bool.and_eq_true, decide_eq_true_eq]
      omega
    simp [asciiLower, hU, isAlnum, h2]
  · simpa [asciiLower, hU] using h

/-- The loop of `NormTitleCase` never fails after offset 0; it writes one alphanumeric
character for every alphanumeric byte of the input, equal to it up to letter case, and
nothing for any other byte. -/
theorem normLoop_filter (x : GoString) :
    ∀ (s : GoString) (skip n : Nat) (sb : GoString) (uc : Nat),
      (n = 0 → skip = 0 ∧ startsWithDigit s = false) →
      (∀ j c, j < skip → s[j]? = some c → 128 ≤ c.val) →
      ∃ out, normLoop x (rangeFrom s skip n) sb uc = .ok (sb ++ out)
        ∧ (∀ c ∈ out, isAlnum c = true)
        ∧ out.map asciiLower = (s.filter isAlnum).map asciiLower := by
  intro s
  induction s with
  | nil =>
    intro skip n sb uc _ _
    exact ⟨[], by simp [rangeFrom, normLoop], by simp, by simp⟩
  | cons b bs ih =>
    intro skip n sb uc h0 hskip
    cases skip with
    | succ k =>
      have hb : 128 ≤ b.val := hskip 0 b (Nat.succ_pos k) (by simp)
      have hna : isAlnum b = false := by
        cases hal : isAlnum b with
        | false => rfl
        | true => have := isAlnum_lt b hal; omega
      obtain ⟨out, h1, h2, h3⟩ := ih k (n + 1) sb uc (fun h => absurd h (Nat.succ_ne_zero n))
        (fun j c hj hc => hskip (j + 1) c (by omega) (by simpa using hc))
      refine ⟨out, ?_, h2, ?_⟩
      · simpa [rangeFrom] using h1
      · rw [h3, List.filter_cons, hna]
        simp
    | zero =>
      obtain ⟨hcU, hcL, hcD⟩ := decodeRune_class b bs
      have hcont : ∀ j c, j < (decodeRune (b :: bs)).2 - 1 → bs[j]? = some c → 128 ≤ c.val :=
        fun j c hj hc => decodeRune_cont b bs j c (by omega) hc
      have step : ∀ (sb2 : GoString) (uc2 : Nat),
          ∃ out, normLoop x (rangeFrom bs ((decodeRune (b :: bs)).2 - 1) (n + 1)) sb2 uc2
              = .ok (sb2 ++ out)
            ∧ (∀ c ∈ out, isAlnum c = true)
            ∧ out.map asciiLower = (bs.filter isAlnum).map asciiLower :=
        fun sb2 uc2 => ih _ (n + 1) sb2 uc2 (fun h => absurd h (Nat.succ_ne_zero n)) hcont
      -- one alphanumeric byte, written as `ch`
      have keep : ∀ (ch : Byte) (uc2 : Nat), isAlnum b = true → asciiLower ch = asciiLower b →
          isAlnum ch = true →
          ∃ out, normLoop x (rangeFrom bs ((decodeRune (b :: bs)).2 - 1) (n + 1)) (sb ++ [ch]) uc2
              = .ok (sb ++ out)
            ∧ (∀ c ∈ out, isAlnum c = true)
            ∧ out.map asciiLower = (List.filter isAlnum (b :: bs)).map asciiLower := by
        intro ch uc2 hal hlow hch
        obtain ⟨out, h1, h2, h3⟩ := step (sb ++ [ch]) uc2
        refine ⟨ch :: out, by rw [h1]; simp, ?_, ?_⟩
        · intro c hc
          rcases List.mem_cons.mp hc with hc | hc
          · rw [hc]; exact hch
          · exact h2 c hc
        · rw [List.filter_cons, hal]
          simp [hlow, h3]
      rw [rangeFrom_cons_zero, normLoop]
      simp only [hcU, hcL, hcD]
      by_cases hU : isUppercase b.val = true
      · have hlt := upper_lt b hU
        have hal : isAlnum b = true := by simp [isAlnum, hU]
        have hc : (decodeRune (b :: bs)).1 = b.val := by rw [decodeRune_ascii b bs hlt]
        rw [if_pos hU, hc, toByte_val, lower_of_upper b hU]
        split
        · exact keep b _ hal rfl hal
        · exact keep (asciiLower b) _ hal (asciiLower_idem b) (asciiLower_alnum b hal)
      · rw [if_neg hU]
        by_cases hL : isLowercase b.val = true
        · have hlt := lower_lt b hL
          have hal : isAlnum b = true := by simp [isAlnum, hL]
          have hc : (decodeRune (b :: bs)).1 = b.val := by rw [decodeRune_ascii b bs hlt]
          rw [if_pos hL, hc, toByte_val]
          exact keep b _ hal rfl hal
        · rw [if_neg hL]
          by_cases hD : isDigit b.val = true
          · have hlt := digit_lt b hD
            have hal : isAlnum b = true := by simp [isAlnum, hD]
            have hc : (decodeRune (b :: bs)).1 = b.val := by rw [decodeRune_ascii b bs hlt]
            have hn : n ≠ 0 := by
              intro hn
              have := (h0 hn).2
              simp [startsWithDigit, hD] at this
            rw [if_pos hD, if_neg hn, hc, toByte_val]
            exact keep b _ hal rfl hal
          · rw [if_neg hD]
            have hna : isAlnum b = false := by
              simp only [isAlnum, Bool.or_eq_false_iff]
              exact ⟨⟨by simpa using hU, by simpa using hL⟩, by simpa using hD⟩
            obtain ⟨out, h1, h2, h3⟩ := step sb uc
            refine ⟨out, h1, h2, ?_⟩
            rw [h3, List.filter_cons, hna]
            simp

/-- C19: for every input `x` whose first character is not a digit, `NormTitleCase x`
returns a string made of characters of `[A-Za-z0-9]` only, whose lowercasing is the
lowercased subsequence of the bytes of `x` that are in `[A-Za-z0-9]`: every other byte,
`_` and the bytes of non-ASCII code points included, is dropped without an error; for an
alphanumeric `x` the length is preserved. -/
theorem NormTitleCase_filter (x : GoString) (h : startsWithDigit x = false) :
    ∃ y, NormTitleCase x = .ok y
      ∧ (∀ c ∈ y, isAlnum c = true)
      ∧ y.map asciiLower = (x.filter isAlnum).map asciiLower
      ∧ ((∀ b ∈ x, isAlnum b = true) → y.length = x.length) := by
  obtain ⟨out, h1, h2, h3⟩ := normLoop_filter x x 0 0 [] 0 (fun _ => ⟨rfl, h⟩)
    (fun j c hj _ => absurd hj (Nat.not_lt_zero j))
  refine ⟨out, by simpa [NormTitleCase, rangeString] using h1, h2, h3, ?_⟩
  intro hal
  have hl := congrArg List.length h3
  rw [List.length_map, List.length_map, List.filter_eq_self.mpr hal] at hl
  exact hl

/-- Witness of C19 at `"AB_é1C"`, whose result is `"Ab1C"`. -/
theorem NormTitleCase_filter_witness :
    (∃ y, NormTitleCase (goStr "AB_é1C") = .ok y
      ∧ (∀ c ∈ y, isAlnum c = true)
      ∧ y.map asciiLower = ((goStr "AB_é1C").filter isAlnum).map asciiLower
      ∧ ((∀ b ∈ goStr "AB_é1C", isAlnum b = true) → y.length = (goStr "AB_é1C").length))
      ∧ NormTitleCase (goStr "AB_é1C") = .ok (goStr "Ab1C") :=
  ⟨NormTitleCase_filter (goStr "AB_é1C") (by decide), by decide⟩

/-! ## Idempotence of `NormTitleCase` -/

theorem normChar_not_upper (x : GoString) (i : Nat) (b : Byte)
    (h : isUppercase b.val = false) : normChar x i b = b := by
  simp [normChar, h]

theorem asciiLower_not_upper (b : Byte) (h : isUppercase b.val = true) :
    isUppercase (asciiLower b).val = false := by
  simp only [asciiLower, h, if_true]
  simp only [isUppercase, Bool.and_eq_true, decide_eq_true_eq] at h
  simp only [isUppercase, toByte, Bool.and_eq_false_iff, decide_eq_false_iff_not]
  omega

/-- A character that `NormTitleCase` leaves uppercase was an uppercase word-start. -/
theorem normChar_upper (x : GoString) (i : Nat) (b : Byte)
    (h : isUppercase (normChar x i b).val = true) :
    isUppercase b.val = true ∧ normWordStart x i = true ∧ normChar x i b = b := by
  unfold normChar at h ⊢
  by_cases hU : isUppercase b.val = true
  · by_cases hw : normWordStart x i = true
    · simp [hU, hw]
    · rw [if_pos hU, if_neg hw, asciiLower_not_upper b hU] at h
      cases h
  · simp only [hU, if_false] at h
    exact absurd h hU

theorem normChar_alnum (x : GoString) (i : Nat) (b : Byte) (h : isAlnum b = true) :
    isAlnum (normChar x i b) = true := by
  unfold normChar
  split
  · split
    · exact h
    · exact asciiLower_alnum b h
  · exact h

theorem normChar_digit (x : GoString) (i : Nat) (b : Byte) (h : isDigit b.val = false) :
    isDigit (normChar x i b).val = false := by
  unfold normChar
  by_cases hU : isUppercase b.val = true
  · by_cases hw : normWordStart x i = true
    · simpa [hU, hw] using h
    · rw [if_pos hU, if_neg hw, asciiLower, if_pos hU]
      simp only [isUppercase, Bool.and_eq_true, decide_eq_true_eq] at hU
      simp only [isDigit, toByte, Bool.and_eq_false_iff, decide_eq_false_iff_not]
      omega
  · simpa [hU] using h

/-- C18: for every string `x` over `[A-Za-z0-9]` whose first character is not a digit,
`NormTitleCase x` returns a string `y` and `NormTitleCase y` returns `y` again. -/
theorem NormTitleCase_idempotent (x : GoString) (hal : ∀ b ∈ x, isAlnum b = true)
    (hfst : startsWithDigit x = false) :
    ∃ y, NormTitleCase x = .ok y ∧ NormTitleCase y = .ok y := by
  obtain ⟨y, h1, hlen, hpt⟩ := normLoop_spec x x [] [] 0 rfl hal (fun _ => hfst) (by simp)
  simp only [List.nil_append, List.length_nil, Nat.zero_add] at h1 hpt
  -- every position of `y` comes from the same position of `x`
  have hy : ∀ i c, y[i]? = some c → ∃ b, x[i]? = some b ∧ c = normChar x i b := by
    intro i c hc
    have hi : i < x.length := by
      by_contra hge
      rw [List.getElem?_eq_none (by omega)] at hc
      cases hc
    obtain ⟨b, hb⟩ : ∃ b, x[i]? = some b := ⟨x[i], List.getElem?_eq_getElem hi⟩
    have := hpt i b hb
    rw [hc] at this
    exact ⟨b, hb, Option.some.inj this⟩
  have haly : ∀ c ∈ y, isAlnum c = true := by
    intro c hc
    obtain ⟨i, hi⟩ := List.getElem?_of_mem hc
    obtain ⟨b, hb, hcb⟩ := hy i c hi
    rw [hcb]
    exact normChar_alnum x i b (hal b (List.getElem?_mem hb))
  have hfsty : startsWithDigit y = false := by
    cases y with
    | nil => rfl
    | cons c cs =>
      obtain ⟨b, hb, hcb⟩ := hy 0 c (by simp)
      cases x with
      | nil => simp at hb
      | cons b0 bs =>
        simp only [List.getElem?_cons_zero, Option.some.injEq] at hb
        simp only [startsWithDigit] at hfst ⊢
        rw [hcb, ← hb]
        exact normChar_digit _ 0 b0 hfst
  obtain ⟨z, g1, glen, gpt⟩ := normLoop_spec y y [] [] 0 rfl haly (fun _ => hfsty) (by simp)
  simp only [List.nil_append, List.length_nil, Nat.zero_add] at g1 gpt
  have hzy : z = y := by
    apply List.ext_getElem?
    intro i
    cases hc : y[i]? with
    | none =>
      have hi : y.length ≤ i := by
        by_contra hlt
        rw [List.getElem?_eq_getElem (by omega)] at hc
        cases hc
      exact List.getElem?_eq_none (by omega)
    | some c =>
      rw [gpt i c hc]
      congr 1
      by_cases hU : isUppercase c.val = true
      · obtain ⟨b, hb, hcb⟩ := hy i c hc
        rw [hcb] at hU
        obtain ⟨hbU, hws, hkeep⟩ := normChar_upper x i b hU
        have hcb2 : c = b := by rw [hcb, hkeep]
        have hwy : normWordStart y i = true := by
          simp only [normWordStart, Bool.or_eq_true, decide_eq_true_eq, Bool.not_eq_true'] at hws ⊢
          rcases hws with (h0 | hprev) | hnext
          · exact Or.inl (Or.inl h0)
          · by_cases h0 : i = 0
            · exact Or.inl (Or.inl h0)
            · refine Or.inl (Or.inr ?_)
              have hi : i - 1 < x.length := by
                have : i < x.length := by
                  by_contra hge
                  rw [List.getElem?_eq_none (by omega)] at hb
                  cases hb
                omega
              have hb1 : x[i - 1]? = some x[i - 1] := List.getElem?_eq_getElem hi
              have hu1 : isUppercase (x[i - 1]).val = false := by
                simpa [upperAt, hb1] using hprev
              have hy1 := hpt (i - 1) _ hb1
              rw [normChar_not_upper x (i - 1) _ hu1] at hy1
              simp [upperAt, hy1, hu1]
          · refine Or.inr ?_
            unfold followedByLower at hnext ⊢
            cases hn : x[i + 1]? with
            | none => rw [hn] at hnext; cases hnext
            | some d =>
              rw [hn] at hnext
              simp only [Bool.and_eq_true] at hnext
              have hdl := hnext.1
              have hy1 := hpt (i + 1) d hn
              rw [normChar_not_upper x (i + 1) d (lower_not_upper d hdl)] at hy1
              rw [hy1, hlen]
              simp only [Bool.and_eq_true]
              exact hnext
        simp [normChar, hU, hcb, hkeep, hbU, hwy]
      · exact normChar_not_upper y i c (by simpa using hU)
  refine ⟨y, ?_, ?_⟩
  · simpa [NormTitleCase, rangeString] using h1
  · rw [hzy] at g1
    simpa [NormTitleCase, rangeString] using g1

/-- Witness of C18 at `"GRPCError2URLs"`. -/
theorem NormTitleCase_idempotent_witness :
    (∃ y, NormTitleCase (goStr "GRPCError2URLs") = .ok y ∧ NormTitleCase y = .ok y)
      ∧ NormTitleCase (goStr "GRPCError2URLs") = .ok (goStr "GrpcError2Urls")
      ∧ NormTitleCase (goStr "GrpcError2Urls") = .ok (goStr "GrpcError2Urls") :=
  ⟨NormTitleCase_idempotent (goStr "GRPCError2URLs") (by decide) (by decide), by decide,
    by decide⟩

/-! ## The three converters together -/

theorem asciiLower_ne_underscore (b : Byte) (h : isLetter b = true) :
    asciiLower b ≠ toByte 95 := by
  intro he
  have hv := congrArg Fin.val he
  simp only [isLetter, isUppercase, isLowercase, Bool.or_eq_true, Bool.and_eq_true,
    decide_eq_true_eq] at h
  unfold asciiLower at hv
  split_ifs at hv with hU
  · simp only [toByte] at hv
    simp only [isUppercase, Bool.and_eq_true, decide_eq_true_eq] at hU
    omega
  · simp only [toByte] at hv
    simp only [isUppercase, Bool.and_eq_true, decide_eq_true_eq, not_and, not_le] at hU
    omega

theorem upperOfByte_asciiLower (b : Byte) (h : isUppercase b.val = true) :
    upperOfByte (asciiLower b) = [b] := by
  have hb := b.isLt
  simp only [isUppercase, Bool.and_eq_true, decide_eq_true_eq] at h
  have hv : (asciiLower b).val = b.val + 32 := by
    simp only [asciiLower, isUppercase, Bool.and_eq_true, decide_eq_true_eq, h, and_self,
      if_true, toByte]
    omega
  unfold upperOfByte
  rw [hv, if_pos (by omega), if_pos (by omega)]
  congr 1
  apply Fin.ext
  simp only [toByte]
  omega

/-- The two scanners run side by side on a suffix made of letters, after offset 0 and from
the same counter: where `ToSnakeCase` writes `_` and a lowercased letter, `NormTitleCase`
keeps the letter, and elsewhere both write the same character; so splitting the output of
the first on `_` and capitalizing the segments gives the output of the second. -/
theorem snake_norm_joint (x : GoString) :
    ∀ (suf sbs sbn : GoString) (n uc : Nat), n ≠ 0 → (∀ b ∈ suf, isLetter b = true) →
      ∃ ys yn, snakeLoop x (rangeFrom suf 0 n) sbs uc = .ok (sbs ++ ys)
        ∧ normLoop x (rangeFrom suf 0 n) sbn uc = .ok (sbn ++ yn)
        ∧ ∀ (c0 : Byte) (ct sbt : GoString),
            titleLoop (splitFrom (toByte 95) ys (c0 :: ct)) sbt
              = sbt ++ (upperOfByte c0 ++ ct) ++ yn := by
  intro suf
  induction suf with
  | nil =>
    intro sbs sbn n uc _ _
    exact ⟨[], [], by simp [rangeFrom, snakeLoop], by simp [rangeFrom, normLoop],
      by simp [splitFrom, titleLoop]⟩
  | cons b bs ih =>
    intro sbs sbn n uc hn hlet
    have hb : isLetter b = true := hlet b (List.mem_cons_self _ _)
    have hlt : b.val < 128 := by
      simp only [isLetter, isUppercase, isLowercase, Bool.or_eq_true, Bool.and_eq_true,
        decide_eq_true_eq] at hb
      omega
    have hbs : ∀ c ∈ bs, isLetter c = true := fun c hc => hlet c (List.mem_cons_of_mem _ hc)
    have hpos : n > 0 := Nat.pos_of_ne_zero hn
    -- a character written by both scanners
    have same : ∀ (ch : Byte) (uc2 : Nat), ch ≠ toByte 95 →
        ∃ ys yn, snakeLoop x (rangeFrom bs 0 (n + 1)) (sbs ++ [ch]) uc2 = .ok (sbs ++ ys)
          ∧ normLoop x (rangeFrom bs 0 (n + 1)) (sbn ++ [ch]) uc2 = .ok (sbn ++ yn)
          ∧ ∀ (c0 : Byte) (ct sbt : GoString),
              titleLoop (splitFrom (toByte 95) ys (c0 :: ct)) sbt
                = sbt ++ (upperOfByte c0 ++ ct) ++ yn := by
      intro ch uc2 hch
      obtain ⟨ys, yn, h1, h2, h3⟩ := ih (sbs ++ [ch]) (sbn ++ [ch]) (n + 1) uc2
        (Nat.succ_ne_zero n) hbs
      refine ⟨ch :: ys, ch :: yn, by rw [h1]; simp, by rw [h2]; simp, ?_⟩
      intro c0 ct sbt
      rw [splitFrom, if_neg hch]
      have := h3 c0 (ct ++ [ch]) sbt
      simpa using this
    rw [rangeFrom_ascii b bs n hlt, snakeLoop, normLoop]
    by_cases hU : isUppercase b.val = true
    · rw [if_pos hU, if_pos hU, lower_of_upper b hU, toByte_val]
      have hlne := asciiLower_ne_underscore b hb
      by_cases hc : uc = 0 ∨ nextIsLower x n = true
      · rw [if_pos ⟨hpos, hc⟩, if_pos hc]
        obtain ⟨ys, yn, h1, h2, h3⟩ := ih (sbs ++ [toByte 95] ++ [asciiLower b]) (sbn ++ [b])
          (n + 1) (uc + 1) (Nat.succ_ne_zero n) hbs
        refine ⟨toByte 95 :: asciiLower b :: ys, b :: yn, by rw [h1]; simp, by rw [h2]; simp, ?_⟩
        intro c0 ct sbt
        rw [splitFrom, if_pos rfl, titleLoop, splitFrom, if_neg hlne]
        have := h3 (asciiLower b) [] (sbt ++ (upperOfByte c0 ++ ct))
        rw [upperOfByte_asciiLower b hU] at this
        simpa using this
      · rw [if_neg (fun h => hc h.2), if_neg hc]
        exact same (asciiLower b) (uc + 1) hlne
    · have hL : isLowercase b.val = true := by
        simp only [isLetter, Bool.or_eq_true] at hb
        rcases hb with hb | hb
        · exact absurd hb hU
        · exact hb
      rw [if_neg hU, if_neg hU, if_pos hL, if_pos hL, toByte_val]
      exact same b 0 (lowercase_ne_underscore b hL)

/-- C16: for every non-empty string `x` of ASCII letters whose first character is
uppercase, `ToSnakeCase x` returns a string `y` and `NormTitleCase x` returns
`ToTitleCase y`. -/
theorem converters_agree (x : GoString) (hne : x ≠ [])
    (hlet : ∀ b ∈ x, isLetter b = true)
    (hfst : ∀ b, x.head? = some b → isUppercase b.val = true) :
    ∃ y, ToSnakeCase x = .ok y ∧ NormTitleCase x = .ok (ToTitleCase y) := by
  cases x with
  | nil => exact absurd rfl hne
  | cons b0 bs =>
    have hU : isUppercase b0.val = true := hfst b0 rfl
    have hbs : ∀ c ∈ bs, isLetter c = true := fun c hc => hlet c (List.mem_cons_of_mem _ hc)
    obtain ⟨ys, yn, h1, h2, h3⟩ := snake_norm_joint (b0 :: bs) bs ([] ++ [asciiLower b0])
      ([] ++ [b0]) 1 1 (by decide) hbs
    have hlne := asciiLower_ne_underscore b0 (hlet b0 (List.mem_cons_self _ _))
    have e1 : ToSnakeCase (b0 :: bs) = .ok (asciiLower b0 :: ys) := by
      rw [ToSnakeCase, rangeString, snakeLoop_first _ b0 _ _ hU, h1]
      simp
    have e2 : NormTitleCase (b0 :: bs) = .ok (b0 :: yn) := by
      rw [NormTitleCase, rangeString, normLoop_first _ b0 _ _ hU, h2]
      simp
    have e3 : ToTitleCase (asciiLower b0 :: ys) = b0 :: yn := by
      have := h3 (asciiLower b0) [] []
      rw [upperOfByte_asciiLower b0 hU] at this
      rw [ToTitleCase, Split, splitFrom, if_neg hlne]
      simpa using this
    exact ⟨asciiLower b0 :: ys, e1, by rw [e2, e3]⟩

/-- Witness of C16 at `"GRPCError"` and at `"URLs"`. -/
theorem converters_agree_witness :
    (∃ y, ToSnakeCase (goStr "GRPCError") = .ok y
        ∧ NormTitleCase (goStr "GRPCError") = .ok (ToTitleCase y))
      ∧ (∃ y, ToSnakeCase (goStr "URLs") = .ok y
        ∧ NormTitleCase (goStr "URLs") = .ok (ToTitleCase y))
      ∧ ToTitleCase (goStr "grpc_error") = goStr "GrpcError"
      ∧ ToTitleCase (goStr "urls") = goStr "Urls" :=
  ⟨converters_agree (goStr "GRPCError") (by decide) (by decide) (by decide),
    converters_agree (goStr "URLs") (by decide) (by decide) (by decide), by decide, by decide⟩

/-! ## Round trip from snake_case through TitleCase -/

/-- The loop of `ToSnakeCase` over a non-empty run of lowercase letters copies it and
resets the counter. -/
theorem snakeLoop_lowerRun_then (x : GoString) :
    ∀ (L tl sb : GoString) (n uc : Nat), (∀ c ∈ L, isLowercase c.val = true) →
      snakeLoop x (rangeFrom (L ++ tl) 0 n) sb uc
        = snakeLoop x (rangeFrom tl 0 (n + L.length)) (sb ++ L) (if L = [] then uc else 0) := by
  intro L
  induction L with
  | nil => intro tl sb n uc _; simp
  | cons b L2 ih =>
    intro tl sb n uc hL
    have hb := hL b (List.mem_cons_self _ _)
    have hL2 : ∀ c ∈ L2, isLowercase c.val = true := fun c hc => hL c (List.mem_cons_of_mem _ hc)
    rw [List.cons_append, rangeFrom_ascii b (L2 ++ tl) n (lower_lt b hb), snakeLoop,
      if_neg (by simp [lower_not_upper b hb]), if_pos hb, toByte_val, ih tl _ (n + 1) 0 hL2]
    simp [Nat.add_assoc, Nat.add_comm 1]

theorem asciiUpper_upper (b : Byte) (h : isLowercase b.val = true) :
    isUppercase (asciiUpper b).val = true ∧ asciiLower (asciiUpper b) = b := by
  have hb := b.isLt
  simp only [isLowercase, Bool.and_eq_true, decide_eq_true_eq] at h
  have hv : (asciiUpper b).val = b.val - 32 := by
    simp only [asciiUpper, isLowercase, Bool.and_eq_true, decide_eq_true_eq, h, and_self,
      if_true, toByte]
    omega
  have hU : isUppercase (asciiUpper b).val = true := by
    simp only [isUppercase, hv, Bool.and_eq_true, decide_eq_true_eq]
    omega
  refine ⟨hU, ?_⟩
  rw [asciiLower, if_pos hU]
  apply Fin.ext
  simp only [toByte, hv]
  omega

/-- The loop of `ToSnakeCase` over capitalized words of two or more letters, entered after
offset 0 with the counter at zero: an underscore and the word, for every word. -/
theorem snakeLoop_words (x : GoString) :
    ∀ (words : List GoString) (sb : GoString) (n : Nat), n ≠ 0 →
      (∀ w ∈ words, 2 ≤ w.length ∧ ∀ b ∈ w, isLowercase b.val = true) →
      snakeLoop x (rangeFrom (words.map capitalize).flatten 0 n) sb 0
        = .ok (sb ++ (words.map fun w => toByte 95 :: w).flatten) := by
  intro words
  induction words with
  | nil => intro sb n _ _; simp [rangeFrom, snakeLoop]
  | cons w ws ih =>
    intro sb n hn hw
    obtain ⟨hlen, hlow⟩ := hw w (List.mem_cons_self _ _)
    have hws : ∀ v ∈ ws, 2 ≤ v.length ∧ ∀ b ∈ v, isLowercase b.val = true :=
      fun v hv => hw v (List.mem_cons_of_mem _ hv)
    match w, hlen, hlow with
    | w0 :: w1 :: r, _, hlow =>
      have h0 := hlow w0 (List.mem_cons_self _ _)
      have hr : ∀ c ∈ w1 :: r, isLowercase c.val = true :=
        fun c hc => hlow c (List.mem_cons_of_mem _ hc)
      obtain ⟨hU, hback⟩ := asciiUpper_upper w0 h0
      have hrun := snakeLoop_lowerRun_then x (w1 :: r) (ws.map capitalize).flatten
        (sb ++ [toByte 95] ++ [w0]) (n + 1) (0 + 1) hr
      rw [if_neg (List.cons_ne_nil _ _)] at hrun
      simp only [List.map_cons, List.flatten_cons, capitalize, List.cons_append]
      rw [rangeFrom_ascii _ _ n (upper_lt _ hU), snakeLoop, if_pos hU,
        if_pos ⟨Nat.pos_of_ne_zero hn, Or.inl rfl⟩, lower_of_upper _ hU, hback]
      rw [List.cons_append] at hrun
      rw [hrun, ih _ _ (by omega) hws]
      simp

theorem intercalate_cons (sep : Byte) (w : GoString) (ws : List GoString) :
    [sep].intercalate (w :: ws) = w ++ (ws.map fun v => sep :: v).flatten := by
  induction ws generalizing w with
  | nil => simp [List.intercalate]
  | cons v vs ih =>
    have := ih v
    simp only [List.intercalate] at this ⊢
    simp [List.intersperse, this]

/-- C15: for every non-empty list of words of two or more lowercase ASCII letters, joined
by `_` into `s`, `ToSnakeCase (ToTitleCase s)` returns `s`. -/
theorem snake_title_roundtrip (words : List GoString) (hne : words ≠ [])
    (hw : ∀ w ∈ words, 2 ≤ w.length ∧ ∀ b ∈ w, isLowercase b.val = true) :
    ToSnakeCase (ToTitleCase ([toByte 95].intercalate words))
      = .ok ([toByte 95].intercalate words) := by
  have hno : ∀ l ∈ words, toByte 95 ∉ l := by
    intro l hl hm
    exact lowercase_ne_underscore _ ((hw l hl).2 _ hm) rfl
  have hsplit : Split ([toByte 95].intercalate words) (toByte 95) = words := by
    rw [Split_eq_splitOn]
    exact List.splitOn_intercalate words (toByte 95) hno hne
  have hascii : ∀ seg ∈ words, ∀ b ∈ seg, b.val < 128 :=
    fun seg hs b hb => lower_lt b ((hw seg hs).2 b hb)
  have hfilter : words.filter (fun seg => decide (seg ≠ [])) = words := by
    rw [List.filter_eq_self]
    intro seg hs
    have := (hw seg hs).1
    cases seg with
    | nil => simp at this
    | cons a as => simp
  have htitle : ToTitleCase ([toByte 95].intercalate words) = (words.map capitalize).flatten := by
    rw [ToTitleCase, hsplit, titleLoop_spec words [] hascii, hfilter]
    simp
  rw [htitle]
  match words, hne, hw with
  | w :: ws, _, hw =>
    obtain ⟨hlen, hlow⟩ := hw w (List.mem_cons_self _ _)
    have hws : ∀ v ∈ ws, 2 ≤ v.length ∧ ∀ b ∈ v, isLowercase b.val = true :=
      fun v hv => hw v (List.mem_cons_of_mem _ hv)
    match w, hlen, hlow with
    | w0 :: w1 :: r, _, hlow =>
      have h0 := hlow w0 (List.mem_cons_self _ _)
      have hr : ∀ c ∈ w1 :: r, isLowercase c.val = true :=
        fun c hc => hlow c (List.mem_cons_of_mem _ hc)
      obtain ⟨hU, hback⟩ := asciiUpper_upper w0 h0
      have hrun := snakeLoop_lowerRun_then
        ((List.map capitalize ((w0 :: w1 :: r) :: ws)).flatten) (w1 :: r)
        (ws.map capitalize).flatten ([] ++ [w0]) 1 1 hr
      rw [if_neg (List.cons_ne_nil _ _)] at hrun
      rw [intercalate_cons, ToSnakeCase, rangeString]
      simp only [List.map_cons, List.flatten_cons, capitalize, List.cons_append] at hrun ⊢
      rw [snakeLoop_first _ _ _ _ hU, hback, hrun, snakeLoop_words _ ws _ _ (by omega) hws]
      simp

/-- Witness of C15 at the words `to`, `title`, `case`: `"to_title_case"` comes back. -/
theorem snake_title_roundtrip_witness :
    ToSnakeCase (ToTitleCase ([toByte 95].intercalate [goStr "to", goStr "title", goStr "case"]))
        = .ok ([toByte 95].intercalate [goStr "to", goStr "title", goStr "case"])
      ∧ [toByte 95].intercalate [goStr "to", goStr "title", goStr "case"] = goStr "to_title_case"
      ∧ ToTitleCase (goStr "to_title_case") = goStr "ToTitleCase" :=
  ⟨snake_title_roundtrip [goStr "to", goStr "title", goStr "case"] (by decide) (by decide),
    by decide, by decide⟩

end Str
